import Mathlib

/-!
Shallow embedding of `lexicographic_bfs` and its helpers
(`_sort_adjacency_lists`, `_append_to_adjacency_list`) from
`src/networkx/algorithms/traversal/breadth_first_search.py`, together with
theorems settling the specification claims about the LexBFS engine.

Modelling conventions:
* Vertices are natural numbers (the source treats them as opaque hashable ids).
* A graph is its node list (`G.nodes` in iteration order) plus, for each
  vertex `v`, the list of neighbours `u` such that `G.edges(v)` yields
  `(v, u)`, in iteration order.  Python `set` iteration (used for the
  vertices not named in `initial_order`) is modelled as node-list order;
  it is arbitrary-but-stable in the source.
* The doubly linked chain of sets is modelled as a `List Block` whose head
  is `first_set`; each block carries a stable identity `id` (fresh ids are
  drawn from a counter), its ordered member list (`set_head`..`set_tail`)
  and its `last_processed` stamp.  Pointer surgery on the chain becomes
  list splicing; the separate `first_set` pointer is the list head.
* Python exceptions are explicit: `KeyError` from `set.remove` / dict
  lookup of a missing key (notably `get_set[None]` when an adjacency
  dummy node with `vertex = None` is dereferenced), and `TypeError` from
  subscripting `None`.  A generator raises during the round *before* the
  round's `yield`, so an error round contributes no emitted vertex.
* The `order = {}` dictionary of line 698 (never written, `return order`
  commented out) is carried as the `rankDict` ghost field.
-/

/-- Vertices: opaque identifiers, modelled as naturals. -/
abbrev V := Nat

/-- Python exceptions that the source can raise while running. -/
inductive Err where
  /-- `KeyError`: removing an absent element from a set, or looking up a
  missing dictionary key (e.g. `get_set[None]`). -/
  | keyError
  /-- `TypeError`: subscripting `None` (e.g. `S[d2]["set_tail"]` when
  `S[d2]` is `None`). -/
  | typeError
  /-- Marker for dereferencing a block reference that is no longer in the
  chain.  In the source the Python object would still be alive, so this
  case is unreachable in the coherent states the algorithm produces. -/
  | danglingRef
deriving DecidableEq, Repr

/-- A graph: node list in iteration order, and for each vertex `v` the
endpoints `u` of the incident edges yielded by `G.edges(v)`, in order. -/
structure Graph where
  nodes : List V
  adj : V → List V

/-- One set of the partition chain: lines 689-696 / 733-740 of the source.
`id` is the block's identity (Python object identity), `members` the
ordered vertex list from `set_head` to `set_tail`, `stamp` the
`last_processed` field. -/
structure Block where
  id : Nat
  members : List V
  stamp : Nat
deriving DecidableEq, Repr

/-- The mutable state of the main loop: the chain of sets (head =
`first_set`), the `get_set` map (`none` once a vertex is emitted), the
fresh-id counter for newly allocated blocks, and the never-written
`order` dictionary of line 698. -/
structure St where
  chain : List Block
  getSet : V → Option Nat
  nextId : Nat
  order : List (V × Nat)

/-- Ghost record of one neighbour move: vertex `u` left block `src` and
was placed in block `tgt`; `created` is true when `tgt` was allocated by
this very move (the `last_processed < i` branch). -/
structure LogEntry where
  u : V
  src : Nat
  tgt : Nat
  created : Bool
deriving DecidableEq, Repr

/-- Result of processing one emitted vertex's neighbour list. -/
structure FoldRes where
  st : St
  log : List LogEntry
  err : Option Err

/-- Observable result of running the generator to completion: the emitted
vertices in order, the exception that aborted it (if any), and the final
contents of the `order` rank dictionary. -/
structure RunResult where
  emitted : List V
  err : Option Err
  rankDict : List (V × Nat)
deriving DecidableEq, Repr

/-- Sequential `set.remove` of each element of `toRemove` from
`remaining`; `KeyError` as soon as an element is absent (lines 665, 672,
805-806 of the source). -/
def removeAll (remaining : List V) (toRemove : List V) : Except Err (List V) :=
  match toRemove with
  | [] => .ok remaining
  | v :: vs =>
    if v ∈ remaining then removeAll (remaining.erase v) vs
    else .error .keyError

/-- Embeds `_append_to_adjacency_list` (lines 817-826): processing vertex
`v` appends `v` to the adjacency list of every endpoint `u` of an edge
`(v, u)` yielded by `G.edges(v)`, in edge order. -/
def append_to_adjacency_list (G : Graph) (v : V) (ls : V → List V) : V → List V :=
  (G.adj v).foldl (fun acc u => fun w => if w = u then acc w ++ [v] else acc w) ls

/-- Embeds `_sort_adjacency_lists` (lines 790-814).  Vertices named in
`order` are processed first (each removed from the remaining set, a
`KeyError` if absent), then the remaining vertices in stable order.  Each
vertex `u` whose list never received an append keeps its pre-allocated
dummy node with `vertex = None`, modelled as the list `[none]`. -/
def sort_adjacency_lists (G : Graph) (order : List V) :
    Except Err (V → List (Option V)) :=
  match removeAll G.nodes order with
  | .error e => .error e
  | .ok rest =>
    let raw := (order ++ rest).foldl (fun ls v => append_to_adjacency_list G v ls)
      (fun _ => [])
    .ok (fun u =>
      match raw u with
      | [] => [none]
      | l => l.map some)

/-- Embeds the ordered-set initialisation of lines 661-684: the member
list of the single starting block is `initial_order` followed by the
remaining vertices; each `initial_order` entry is removed from the vertex
set (`KeyError` when absent or already removed). -/
def buildMembers (G : Graph) (initialOrder : List V) : Except Err (List V) :=
  match initialOrder with
  | [] => .ok G.nodes
  | _ :: _ =>
    match removeAll G.nodes initialOrder with
    | .error e => .error e
    | .ok rest => .ok (initialOrder ++ rest)

/-- Rewrite the block with identity `bid` in place (all other blocks are
untouched; identities are unique in coherent chains). -/
def updateBlock (chain : List Block) (bid : Nat) (f : Block → Block) : List Block :=
  chain.map fun b => if b.id = bid then f b else b

/-- Unlink the block `bid` from the chain when its member list has become
empty (lines 710-714 and 773-780 of the source). -/
def dropEmpty (chain : List Block) (bid : Nat) : List Block :=
  chain.filter fun b => !(b.id == bid && b.members.isEmpty)

/-- Link a freshly allocated block `T` into the chain immediately adjacent
to the block `sid`: before it in standard mode (`d2 = "prev"`), after it
in minus mode (`d2 = "next"`), lines 733-744.  Linking before the chain
head makes `T` the new head (lines 750-751). -/
def insertAdj (minus : Bool) (chain : List Block) (sid : Nat) (T : Block) : List Block :=
  match chain with
  | [] => []
  | b :: rest =>
    if b.id = sid then
      if minus then b :: T :: rest else T :: b :: rest
    else
      b :: insertAdj minus rest sid T

/-- Look up a block by identity (`get_set[u]` dereference). -/
def getBlock (chain : List Block) (bid : Nat) : Option Block :=
  chain.find? fun b => b.id == bid

/-- Identity of the block immediately before `sid` in the chain, if any. -/
def prevIdGo (a : Block) : List Block → Nat → Option Nat
  | [], _ => none
  | b :: rest, sid => if b.id = sid then some a.id else prevIdGo b rest sid

/-- Identity of the block immediately before `sid` in the chain
(`S["prev"]`), or `none` when `sid` is the head or absent. -/
def prevIdOf : List Block → Nat → Option Nat
  | [], _ => none
  | a :: rest, sid => if a.id = sid then none else prevIdGo a rest sid

/-- Identity of the block immediately after `sid` in the chain
(`S["next"]`), or `none` when `sid` is the tail or absent. -/
def nextIdOf : List Block → Nat → Option Nat
  | [], _ => none
  | a :: rest, sid => if a.id = sid then rest.head?.map Block.id else nextIdOf rest sid

/-- The `S[d2]` pointer: the chain neighbour on the side where split
targets live — `prev` in standard mode, `next` in minus mode (lines
648-654). -/
def adjOf (minus : Bool) (chain : List Block) (sid : Nat) : Option Nat :=
  if minus then nextIdOf chain sid else prevIdOf chain sid

/-- The split of block `sid` in round `i` (lines 730-751): allocate block
`tid` holding the moved vertex `u`, link it on the `d2` side of `sid`,
and set `last_processed` of `sid` to `i`.  The source allocates the block
already containing `u` (lines 731-740, 745); the specification describes
the same effect as allocating an empty block and then appending `u`. -/
def splitLink (minus : Bool) (i : Nat) (chain : List Block) (sid : Nat) (u : V)
    (tid : Nat) : List Block :=
  updateBlock (insertAdj minus chain sid ⟨tid, [u], 0⟩) sid fun b => { b with stamp := i }

/-- Remove `u` from the member list of block `sid` (lines 760-771) and
unlink the block when it became empty (lines 773-780). -/
def removeFromBlock (chain : List Block) (sid : Nat) (u : V) : List Block :=
  dropEmpty (updateBlock chain sid fun b => { b with members := b.members.erase u }) sid

/-- Process one node of the emitted vertex's adjacency list (lines
719-782).  A dummy node (`vertex = None`) raises `KeyError` from
`get_set[None]`; an already-emitted neighbour is skipped; otherwise the
neighbour moves from its block `S` either into a freshly created split
target (when `last_processed < i`) or into the block already created for
`S` this round, found through the `S[d2]` pointer. -/
def stepNeighbor (minus : Bool) (i : Nat) (st : St) (uo : Option V) :
    Except Err (St × Option LogEntry) :=
  match uo with
  | none => .error .keyError
  | some u =>
    match st.getSet u with
    | none => .ok (st, none)
    | some sid =>
      match getBlock st.chain sid with
      | none => .error .danglingRef
      | some S =>
        if S.stamp < i then
          let tid := st.nextId
          .ok ({ st with
                  chain := removeFromBlock (splitLink minus i st.chain sid u tid) sid u,
                  nextId := tid + 1,
                  getSet := fun x => if x = u then some tid else st.getSet x },
                some ⟨u, sid, tid, true⟩)
        else
          match adjOf minus st.chain sid with
          | none => .error .typeError
          | some tid =>
            .ok ({ st with
                    chain := removeFromBlock
                      (updateBlock st.chain tid fun b =>
                        { b with members := b.members ++ [u] }) sid u,
                    getSet := fun x => if x = u then some tid else st.getSet x },
                  some ⟨u, sid, tid, false⟩)

/-- Walk the emitted vertex's whole adjacency list, accumulating the ghost
move log; an exception aborts the walk (and hence the generator) there. -/
def foldNeighbors (minus : Bool) (i : Nat) : St → List (Option V) → FoldRes
  | st, [] => ⟨st, [], none⟩
  | st, uo :: rest =>
    match stepNeighbor minus i st uo with
    | .error e => ⟨st, [], some e⟩
    | .ok (st', ent) =>
      let r := foldNeighbors minus i st' rest
      ⟨r.st, ent.toList ++ r.log, r.err⟩

/-- Propagate the outcome of the neighbour walk: an exception escapes the
generator before the `yield`, otherwise round `i` yields `v` with the
refined state. -/
def finishRound (r : FoldRes) (v : V) : Except Err (St × V) :=
  match r.err with
  | some e => .error e
  | none => .ok (r.st, v)

/-- One round of the main loop (lines 701-785): pop the front vertex of
the first set (dropping the set when it empties), clear its `get_set`
entry, then refine along its adjacency list.  The vertex is yielded only
after the whole walk, so an exception during the walk emits nothing. -/
def runRound (minus : Bool) (nb : V → List (Option V)) (i : Nat) (st : St) :
    Except Err (St × V) :=
  match st.chain with
  | [] => .error .typeError
  | b :: rest =>
    match b.members with
    | [] => .error .typeError
    | v :: vs =>
      let chain0 := if vs = [] then rest else { b with members := vs } :: rest
      let st0 : St := { st with
        chain := chain0,
        getSet := fun x => if x = v then none else st.getSet x }
      finishRound (foldNeighbors minus i st0 (nb v)) v

/-- The `while first_set:` loop, fuelled (the run never needs more rounds
than there are vertices, since each round permanently consumes one). -/
def loop (minus : Bool) (nb : V → List (Option V)) :
    Nat → Nat → St → RunResult
  | 0, _, st => ⟨[], none, st.order⟩
  | fuel + 1, i, st =>
    match st.chain with
    | [] => ⟨[], none, st.order⟩
    | _ :: _ =>
      match runRound minus nb i st with
      | .error e => ⟨[], some e, st.order⟩
      | .ok (st', v) =>
        let r := loop minus nb fuel (i + 1) st'
        ⟨v :: r.emitted, r.err, r.rankDict⟩

/-- Embeds `lexicographic_bfs` (lines 603-787), fully consumed: the empty
graph yields nothing (line 642-643); otherwise the single starting block
is built from `initial_order` plus the remaining vertices, the adjacency
lists are ordered, and the main loop runs from round `i = 1`. -/
def lexicographic_bfs (G : Graph) (minus : Bool) (initialOrder : List V) : RunResult :=
  if G.nodes.length = 0 then ⟨[], none, []⟩
  else
    match buildMembers G initialOrder with
    | .error e => ⟨[], some e, []⟩
    | .ok mem =>
      match sort_adjacency_lists G initialOrder with
      | .error e => ⟨[], some e, []⟩
      | .ok nb =>
        loop minus nb G.nodes.length 1
          ⟨[⟨0, mem, 0⟩], fun v => if v ∈ G.nodes then some 0 else none, 1, []⟩

/-- Path graph 0 - 1 with an isolated vertex 2, for concrete evaluations. -/
def pathPlusIsolated : Graph :=
  ⟨[0, 1, 2], fun v => if v = 0 then [1] else if v = 1 then [0] else []⟩

/-- The one-vertex graph with no edges. -/
def singletonGraph : Graph := ⟨[0], fun _ => []⟩

/-- The one-vertex graph whose only edge is a self-loop. -/
def singletonLoopGraph : Graph := ⟨[0], fun v => if v = 0 then [0] else []⟩

/-- Two isolated vertices (its complement is the single edge 0 - 1). -/
def twoIsolated : Graph := ⟨[0, 1], fun _ => []⟩

/-- The graph with no vertices. -/
def noVertexGraph : Graph := ⟨[], fun _ => []⟩

/-- Path graph 0 - 1 (both endpoints have a neighbour). -/
def pathTwo : Graph :=
  ⟨[0, 1], fun v => if v = 0 then [1] else if v = 1 then [0] else []⟩

example : lexicographic_bfs singletonGraph false [] = ⟨[], some .keyError, []⟩ := by decide
example : lexicographic_bfs noVertexGraph false [] = ⟨[], none, []⟩ := by decide
example : lexicographic_bfs pathPlusIsolated false [] = ⟨[0, 1], some .keyError, []⟩ := by
  decide
example : lexicographic_bfs singletonLoopGraph false [] = ⟨[0], none, []⟩ := by decide
example : lexicographic_bfs twoIsolated true [] = ⟨[], some .keyError, []⟩ := by decide
example : lexicographic_bfs pathTwo false [1] = ⟨[1, 0], none, []⟩ := by decide
example : lexicographic_bfs noVertexGraph false [5] = ⟨[], none, []⟩ := by decide
example : lexicographic_bfs singletonGraph false [0, 0] = ⟨[], some .keyError, []⟩ := by
  decide

/-! ### Preservation of the `order` rank dictionary (never written) -/

/-- A successful neighbour step never touches the `order` dictionary. -/
theorem stepNeighbor_order (minus : Bool) (i : Nat) (st : St) (uo : Option V)
    (st' : St) (ent : Option LogEntry)
    (h : stepNeighbor minus i st uo = .ok (st', ent)) : st'.order = st.order := by
  unfold stepNeighbor at h
  repeat' split at h
  all_goals simp only [Except.ok.injEq, Prod.mk.injEq, reduceCtorEq] at h
  all_goals obtain ⟨h1, h2⟩ := h
  all_goals subst h1
  all_goals rfl

/-- Walking a whole adjacency list never touches the `order` dictionary. -/
theorem foldNeighbors_st_order (minus : Bool) (i : Nat) :
    ∀ (l : List (Option V)) (st : St),
      (foldNeighbors minus i st l).st.order = st.order := by
  intro l
  induction l with
  | nil => intro st; rfl
  | cons uo rest ih =>
    intro st
    simp only [foldNeighbors]
    cases h : stepNeighbor minus i st uo with
    | error e => rfl
    | ok p =>
      obtain ⟨st', ent⟩ := p
      simpa using (ih st').trans (stepNeighbor_order minus i st uo st' ent h)

/-- Inverting `finishRound`: a yielded round returns the walk's final
state and the popped vertex. -/
theorem finishRound_ok (r : FoldRes) (v : V) (st' : St) (w : V)
    (h : finishRound r v = .ok (st', w)) : st' = r.st ∧ w = v := by
  unfold finishRound at h
  split at h
  · simp at h
  · simp only [Except.ok.injEq, Prod.mk.injEq] at h
    exact ⟨h.1.symm, h.2.symm⟩

/-- A successful round never touches the `order` dictionary. -/
theorem runRound_order (minus : Bool) (nb : V → List (Option V)) (i : Nat)
    (st st' : St) (v : V) (h : runRound minus nb i st = .ok (st', v)) :
    st'.order = st.order := by
  unfold runRound at h
  split at h
  · exact absurd h (by simp)
  · split at h
    · exact absurd h (by simp)
    · split at h
      · obtain ⟨h1, h2⟩ := finishRound_ok _ _ _ _ h
        subst h1
        exact foldNeighbors_st_order minus i _ _
      · obtain ⟨h1, h2⟩ := finishRound_ok _ _ _ _ h
        subst h1
        exact foldNeighbors_st_order minus i _ _

/-- The whole fuelled loop reports exactly the (untouched) `order`
dictionary of its starting state. -/
theorem loop_rankDict (minus : Bool) (nb : V → List (Option V)) :
    ∀ (fuel i : Nat) (st : St), (loop minus nb fuel i st).rankDict = st.order := by
  intro fuel
  induction fuel with
  | zero => intro i st; rfl
  | succ n ih =>
    intro i st
    simp only [loop]
    split
    · rfl
    · split
      · rfl
      next st' v hr =>
        simpa using (ih (i + 1) st').trans (runRound_order minus nb i st st' v hr)

/-! ### Small facts about the setup helpers -/

/-- If a requested removal names an element that is not in the remaining
set, the sequential removal raises `KeyError`. -/
theorem removeAll_error_of_not_mem :
    ∀ (l rem : List V) (x : V), x ∈ l → x ∉ rem →
      removeAll rem l = .error .keyError := by
  intro l
  induction l with
  | nil => intro rem x hx; exact absurd hx (List.not_mem_nil x)
  | cons v vs ih =>
    intro rem x hx hnx
    unfold removeAll
    by_cases hv : v ∈ rem
    · rw [if_pos hv]
      rcases List.mem_cons.mp hx with h | h
      · exact absurd (h ▸ hv) hnx
      · exact ih _ x h fun hc => hnx (List.mem_of_mem_erase hc)
    · rw [if_neg hv]

/-- If a requested removal names an element twice while the remaining set
holds it at most once, the sequential removal raises `KeyError`. -/
theorem removeAll_error_of_dup :
    ∀ (l rem : List V) (x : V), rem.count x ≤ 1 → 2 ≤ l.count x →
      removeAll rem l = .error .keyError := by
  intro l
  induction l with
  | nil => intro rem x _ h2; simp at h2
  | cons v vs ih =>
    intro rem x h1 h2
    unfold removeAll
    by_cases hv : v ∈ rem
    · rw [if_pos hv]
      by_cases hxv : x = v
      · subst hxv
        have hz : (rem.erase x).count x = 0 := by
          have := List.count_erase_self x rem
          omega
        have hnx : x ∉ rem.erase x := by
          rw [← List.count_pos_iff]
          omega
        have hxvs : x ∈ vs := by
          rw [← List.count_pos_iff]
          rw [List.count_cons_self] at h2
          omega
        exact removeAll_error_of_not_mem vs _ x hxvs hnx
      · refine ih _ x ?_ ?_
        · rw [List.count_erase_of_ne hxv]
          exact h1
        · rwa [List.count_cons_of_ne hxv] at h2
    · rw [if_neg hv]

/-- When `initial_order` is nonempty and its removals succeed, the
starting member list is `initial_order` followed by the leftovers. -/
theorem buildMembers_cons_ok (G : Graph) (a : V) (t : List V) (mem : List V)
    (h : buildMembers G (a :: t) = .ok mem) :
    ∃ rest, mem = a :: (t ++ rest) := by
  unfold buildMembers at h
  cases hr : removeAll G.nodes (a :: t) with
  | error e => rw [hr] at h; simp at h
  | ok rest =>
    rw [hr] at h
    simp only [Except.ok.injEq] at h
    exact ⟨rest, by rw [← h]; rfl⟩

/-- A successful round pops and emits exactly the front vertex of the
first block. -/
theorem runRound_ok_head (minus : Bool) (nb : V → List (Option V)) (i : Nat)
    (st st' : St) (v : V) (h : runRound minus nb i st = .ok (st', v)) :
    ∃ b rest, st.chain = b :: rest ∧ b.members.head? = some v := by
  unfold runRound at h
  split at h
  · simp at h
  next b rest heq =>
    split at h
    · simp at h
    next v0 vs hm =>
      repeat' split at h
      all_goals obtain ⟨h1, h2⟩ := finishRound_ok _ _ _ _ h
      all_goals exact ⟨b, rest, heq, by rw [hm, h2]; rfl⟩

/-! ### Claim theorems: concrete behaviour of the full run -/

/-- C1.  The totality claim fails on the code: on the graph with edge
0 - 1 plus the isolated vertex 2, full consumption emits only `[0, 1]`
and then raises `KeyError` — the walk of vertex 2's adjacency structure
dereferences the pre-allocated dummy node (`vertex = None`, line 793-797)
via `get_set[None]` (line 721) before vertex 2 can be yielded.  So the
produced sequence does not contain each of the 3 vertices exactly once. -/
theorem lexbfs_isolated_vertex_keyerror :
    lexicographic_bfs pathPlusIsolated false [] = ⟨[0, 1], some .keyError, []⟩ := by
  decide

/-- C2.  The empty graph does yield the empty sequence (line 642-643),
but the singleton graph does not yield its vertex: the lone vertex's
adjacency list is the unfilled dummy node, so the run raises `KeyError`
at `get_set[None]` before the first `yield`, emitting nothing. -/
theorem lexbfs_empty_graph_and_singleton :
    lexicographic_bfs noVertexGraph false [] = ⟨[], none, []⟩ ∧
      lexicographic_bfs singletonGraph false [] = ⟨[], some .keyError, []⟩ := by
  constructor
  · decide
  · decide

/-- C3.  The run only ever produces the bare emission sequence: the
`order` dictionary created at line 698 is never written (its only other
appearance, `return order`, is commented out at line 787), so the
vertex-to-rank structure is empty for the whole run, on every graph, in
both modes, for every `initial_order`. -/
theorem lexbfs_rank_dict_never_populated (G : Graph) (minus : Bool) (io : List V) :
    (lexicographic_bfs G minus io).rankDict = [] := by
  unfold lexicographic_bfs
  split
  · rfl
  · cases hb : buildMembers G io with
    | error e => rfl
    | ok mem =>
      cases hs : sort_adjacency_lists G io with
      | error e => rfl
      | ok nb => exact loop_rankDict minus nb G.nodes.length 1 _

/-- C4, counterexample.  On the empty graph the `len(G.nodes) == 0` early
return (line 642) runs before any `initial_order` validation, so an
`initial_order` entry that is not a graph vertex is silently ignored:
the run yields nothing and raises no error, contradicting the claim that
a bad entry always surfaces an invalid-vertex error. -/
theorem lexbfs_bad_vertex_empty_graph_silent :
    lexicographic_bfs noVertexGraph false [5] = ⟨[], none, []⟩ := by
  decide

/-- C4, amended.  On a nonempty graph, an `initial_order` entry that is
not a graph vertex raises `KeyError` (from `vertices.remove`, lines
661-672) during setup, before any vertex of the output sequence is
produced; the bad entry is never silently ignored. -/
theorem lexbfs_bad_initial_vertex_errors (G : Graph) (minus : Bool) (io : List V)
    (hne : G.nodes ≠ []) (x : V) (hx : x ∈ io) (hnx : x ∉ G.nodes) :
    lexicographic_bfs G minus io = ⟨[], some .keyError, []⟩ := by
  unfold lexicographic_bfs
  rw [if_neg (by simpa using hne)]
  cases io with
  | nil => exact absurd hx (List.not_mem_nil x)
  | cons a t =>
    unfold buildMembers
    rw [removeAll_error_of_not_mem (a :: t) G.nodes x hx hnx]

/-- Witness for the amended C4 at a concrete input: vertex 5 is not in
the one-vertex graph, and the run errors with nothing emitted. -/
theorem lexbfs_bad_initial_vertex_errors_witness :
    lexicographic_bfs singletonGraph false [5] = ⟨[], some .keyError, []⟩ :=
  lexbfs_bad_initial_vertex_errors singletonGraph false [5] (by decide) 5
    (by decide) (by decide)

/-- C7.  Self-loop tolerance fails on the code: the one-vertex graph with
a self-loop yields `[0]` (the self-loop entry fills the dummy node and is
then skipped because `get_set[0]` is already `None`), while the same
graph without the self-loop crashes with `KeyError` on the unfilled dummy
node before emitting anything — the two orderings are not the same. -/
theorem lexbfs_self_loop_divergence :
    lexicographic_bfs singletonLoopGraph false [] = ⟨[0], none, []⟩ ∧
      lexicographic_bfs singletonGraph false [] = ⟨[], some .keyError, []⟩ := by
  constructor
  · decide
  · decide

/-- C8.  Complement-mode symmetry fails on the code: on the two-vertex
graph with no edges (whose complement is the single edge 0 - 1, so a
LexBFS ordering of the complement exists, e.g. `[0, 1]`), running with
`minus = True` raises `KeyError` on the first vertex's unfilled adjacency
dummy node and produces no vertex order at all. -/
theorem lexbfs_minus_mode_crash :
    lexicographic_bfs twoIsolated true [] = ⟨[], some .keyError, []⟩ := by
  decide

/-- C9.  If `initial_order` lists the same graph vertex twice, the second
`vertices.remove` of that vertex (line 672) raises `KeyError` during
setup — before any vertex is emitted — even though every listed vertex
belongs to the graph. -/
theorem lexbfs_duplicate_initial_order_keyerror (G : Graph) (minus : Bool)
    (io : List V) (x : V) (hnd : G.nodes.Nodup) (hx : x ∈ G.nodes)
    (hdup : 2 ≤ io.count x) (hsub : ∀ y ∈ io, y ∈ G.nodes) :
    lexicographic_bfs G minus io = ⟨[], some .keyError, []⟩ := by
  unfold lexicographic_bfs
  rw [if_neg (by simpa using List.ne_nil_of_mem hx)]
  cases io with
  | nil => simp at hdup
  | cons a t =>
    unfold buildMembers
    rw [removeAll_error_of_dup (a :: t) G.nodes x (List.nodup_iff_count_le_one.mp hnd x) hdup]

/-- Witness for C9 at a concrete input: vertex 0 of the path 0 - 1 listed
twice makes the run error with nothing emitted. -/
theorem lexbfs_duplicate_initial_order_keyerror_witness :
    lexicographic_bfs pathTwo false [0, 0] = ⟨[], some .keyError, []⟩ :=
  lexbfs_duplicate_initial_order_keyerror pathTwo false [0, 0] 0 (by decide)
    (by decide) (by decide) (by decide)

/-- C10, counterexample.  On the one-vertex graph with
`initial_order = [0]` (nonempty, distinct, all entries vertices of the
graph) the run raises `KeyError` before emitting anything, so there is no
first emitted vertex at all, contradicting the claim that the first
vertex emitted is `initial_order[0]`. -/
theorem lexbfs_first_emitted_counterexample :
    lexicographic_bfs singletonGraph false [0] = ⟨[], some .keyError, []⟩ := by
  decide

/-- C10, amended.  Whenever the run emits at least one vertex, the first
emitted vertex is exactly the first element of the nonempty
`initial_order` (whose entries are distinct vertices of the graph), in
both standard and minus modes: round 1 pops the front of the starting
member list, which `buildMembers` makes begin with `initial_order[0]`. -/
theorem lexbfs_first_emitted_head (G : Graph) (minus : Bool) (io : List V)
    (hio : io ≠ []) (hnd : io.Nodup) (hsub : ∀ y ∈ io, y ∈ G.nodes) (x : V)
    (hx : (lexicographic_bfs G minus io).emitted.head? = some x) :
    io.head? = some x := by
  cases io with
  | nil => exact absurd rfl hio
  | cons a t =>
    unfold lexicographic_bfs at hx
    split at hx
    · simp at hx
    · cases hb : buildMembers G (a :: t) with
      | error e => rw [hb] at hx; simp at hx
      | ok mem =>
        rw [hb] at hx
        cases hs : sort_adjacency_lists G (a :: t) with
        | error e => rw [hs] at hx; simp at hx
        | ok nb =>
          rw [hs] at hx
          obtain ⟨rest, hmem⟩ := buildMembers_cons_ok G a t mem hb
          subst hmem
          rename_i hlen
          obtain ⟨k, hk⟩ := Nat.exists_eq_succ_of_ne_zero hlen
          rw [hk] at hx
          simp only [loop] at hx
          split at hx
          · simp at hx
          next st' v hr =>
            obtain ⟨b, brest, hchain, hhead⟩ :=
              runRound_ok_head minus nb 1 _ st' v hr
            simp only [List.cons.injEq] at hchain
            obtain ⟨hb1, hb2⟩ := hchain
            rw [← hb1] at hhead
            simp only [List.head?_cons, Option.some.injEq] at hhead hx ⊢
            rw [← hx, ← hhead]

/-- Witness for the amended C10 at a concrete input: on the path 0 - 1
with `initial_order = [1]` the run emits `[1, 0]`, whose head is the
first element of `initial_order`. -/
theorem lexbfs_first_emitted_head_witness :
    (lexicographic_bfs pathTwo false [1]).emitted.head? = some 1 ∧
      ([1] : List V).head? = some 1 :=
  ⟨by decide,
    lexbfs_first_emitted_head pathTwo false [1] (by decide) (by decide)
      (by decide) 1 (by decide)⟩

/-! ### Chain-splicing lemmas for the partition structure -/

/-- Unfolding `updateBlock` on a cons cell. -/
theorem updateBlock_cons (b : Block) (X : List Block) (bid : Nat) (f : Block → Block) :
    updateBlock (b :: X) bid f = (if b.id = bid then f b else b) :: updateBlock X bid f :=
  rfl

/-- Rewriting a block identity that does not occur leaves the chain
unchanged. -/
theorem updateBlock_eq_of_not_mem (bid : Nat) (f : Block → Block) :
    ∀ (X : List Block), bid ∉ X.map Block.id → updateBlock X bid f = X := by
  intro X
  induction X with
  | nil => intro _; rfl
  | cons a X' ih =>
    intro h
    simp only [List.map_cons, List.mem_cons, not_or] at h
    have hne : ¬a.id = bid := fun hc => h.1 hc.symm
    rw [updateBlock_cons, if_neg hne, ih h.2]

/-- `updateBlock` distributes over chain concatenation. -/
theorem updateBlock_append (X Y : List Block) (bid : Nat) (f : Block → Block) :
    updateBlock (X ++ Y) bid f = updateBlock X bid f ++ updateBlock Y bid f :=
  List.map_append _ X Y

/-- Unlinking a block identity that does not occur leaves the chain
unchanged. -/
theorem dropEmpty_eq_of_not_mem (bid : Nat) :
    ∀ (X : List Block), bid ∉ X.map Block.id → dropEmpty X bid = X := by
  intro X
  induction X with
  | nil => intro _; rfl
  | cons a X' ih =>
    intro h
    simp only [List.map_cons, List.mem_cons, not_or] at h
    have hne : ¬a.id = bid := fun hc => h.1 hc.symm
    simp only [dropEmpty, List.filter_cons]
    have ha : (a.id == bid && a.members.isEmpty) = false := by
      rw [show (a.id == bid) = false from beq_eq_false_iff_ne.mpr hne, Bool.false_and]
    rw [ha]
    simp only [Bool.not_false, if_pos trivial]
    have := ih h.2
    simp only [dropEmpty] at this
    rw [this]

/-- `dropEmpty` distributes over chain concatenation. -/
theorem dropEmpty_append (X Y : List Block) (bid : Nat) :
    dropEmpty (X ++ Y) bid = dropEmpty X bid ++ dropEmpty Y bid :=
  List.filter_append X Y

/-- Unlinking on a singleton: the block disappears exactly when its
member list is empty. -/
theorem dropEmpty_single (S : Block) (bid : Nat) (h : S.id = bid) :
    dropEmpty [S] bid = if S.members = [] then [] else [S] := by
  simp only [dropEmpty, List.filter]
  rw [show (S.id == bid) = true from beq_iff_eq.mpr h]
  cases hm : S.members with
  | nil => simp [List.isEmpty, hm]
  | cons a l => simp [List.isEmpty, hm]

/-- Splicing characterisation of `insertAdj`: the new block lands
immediately before (standard) or after (minus) the first occurrence of
the target identity. -/
theorem insertAdj_spec (minus : Bool) (T : Block) (S : Block) (B : List Block) :
    ∀ (X : List Block), S.id ∉ X.map Block.id →
      insertAdj minus (X ++ S :: B) S.id T =
        X ++ (if minus then S :: T :: B else T :: S :: B) := by
  intro X
  induction X with
  | nil =>
    intro _
    simp [insertAdj]
  | cons a X' ih =>
    intro h
    simp only [List.map_cons, List.mem_cons, not_or] at h
    have hne : ¬a.id = S.id := fun hc => h.1 hc.symm
    simp only [List.cons_append, insertAdj, if_neg hne]
    exact congrArg (List.cons a) (ih h.2)

/-- `getBlock` finds the first block carrying the requested identity. -/
theorem getBlock_append_cons (S : Block) (B : List Block) :
    ∀ (X : List Block), S.id ∉ X.map Block.id →
      getBlock (X ++ S :: B) S.id = some S := by
  intro X
  induction X with
  | nil =>
    simp only [List.nil_append, getBlock]
    intro _
    rw [List.find?_cons_of_pos _ (by simp)]
  | cons a X' ih =>
    intro h
    simp only [List.map_cons, List.mem_cons, not_or] at h
    have hne : ¬a.id = S.id := fun hc => h.1 hc.symm
    simp only [List.cons_append, getBlock]
    rw [List.find?_cons_of_neg _ (by simpa using hne)]
    exact ih h.2

/-- The full effect of `splitLink` on a decomposed chain: the fresh block
`⟨tid, [u], 0⟩` is linked immediately adjacent to `S` (after it in minus
mode, before it in standard mode) and `S`'s `last_processed` stamp
becomes `i`. -/
theorem splitLink_spec (minus : Bool) (i : Nat) (X B : List Block) (S : Block)
    (u : V) (tid : Nat) (hX : S.id ∉ X.map Block.id) (hB : S.id ∉ B.map Block.id)
    (htid : ¬tid = S.id) :
    splitLink minus i (X ++ S :: B) S.id u tid =
      X ++ (if minus
            then { S with stamp := i } :: (⟨tid, [u], 0⟩ : Block) :: B
            else (⟨tid, [u], 0⟩ : Block) :: { S with stamp := i } :: B) := by
  have hT : ¬(⟨tid, [u], 0⟩ : Block).id = S.id := htid
  cases minus with
  | false =>
    simp only [splitLink]
    rw [insertAdj_spec false _ S B X hX]
    simp only [Bool.false_eq_true, if_false]
    rw [updateBlock_append, updateBlock_eq_of_not_mem _ _ X hX,
      updateBlock_cons, updateBlock_cons, if_neg hT, if_pos rfl,
      updateBlock_eq_of_not_mem _ _ B hB]
  | true =>
    simp only [splitLink]
    rw [insertAdj_spec true _ S B X hX]
    simp only [if_true]
    rw [updateBlock_append, updateBlock_eq_of_not_mem _ _ X hX,
      updateBlock_cons, updateBlock_cons, if_neg hT, if_pos rfl,
      updateBlock_eq_of_not_mem _ _ B hB]

/-- C6.  When a neighbour `u` still owned by block `S` is processed in
round `i` and `S` carries a stamp `last_processed < i`, the step runs the
split path: a freshly allocated block (holding exactly the moved
neighbour `u`, per the fused allocate-and-append of lines 731-745) is
linked into the chain immediately adjacent to `S` — before `S` in
standard mode, after `S` in minus mode — and `S`'s stamp is set to `i`.
Head promotion: in standard mode, if `S` was the chain head the new block
becomes the new head; in minus mode the chain head is never changed by
the link. -/
theorem lexbfs_split_link_spec (minus : Bool) (i : Nat) (st : St) (u : V)
    (X B : List Block) (S : Block)
    (hchain : st.chain = X ++ S :: B)
    (hX : S.id ∉ X.map Block.id) (hB : S.id ∉ B.map Block.id)
    (hfresh : ∀ b ∈ st.chain, b.id < st.nextId)
    (hget : st.getSet u = some S.id)
    (hstamp : S.stamp < i) :
    stepNeighbor minus i st (some u) =
      .ok ({ st with
          chain := removeFromBlock (splitLink minus i st.chain S.id u st.nextId) S.id u,
          nextId := st.nextId + 1,
          getSet := fun x => if x = u then some st.nextId else st.getSet x },
        some ⟨u, S.id, st.nextId, true⟩) ∧
    splitLink minus i st.chain S.id u st.nextId =
      X ++ (if minus
            then { S with stamp := i } :: (⟨st.nextId, [u], 0⟩ : Block) :: B
            else (⟨st.nextId, [u], 0⟩ : Block) :: { S with stamp := i } :: B) ∧
    (minus = true →
      (splitLink minus i st.chain S.id u st.nextId).head?.map Block.id =
        st.chain.head?.map Block.id) ∧
    (minus = false → X = [] →
      (splitLink minus i st.chain S.id u st.nextId).head? =
        some ⟨st.nextId, [u], 0⟩) := by
  have hS : S ∈ st.chain := by rw [hchain]; exact List.mem_append_right X (List.mem_cons_self S B)
  have htid : ¬st.nextId = S.id := fun hc => absurd (hc ▸ hfresh S hS) (lt_irrefl _)
  have hgb : getBlock st.chain S.id = some S := by
    rw [hchain]; exact getBlock_append_cons S B X hX
  have hsplit : splitLink minus i st.chain S.id u st.nextId =
      X ++ (if minus
            then { S with stamp := i } :: (⟨st.nextId, [u], 0⟩ : Block) :: B
            else (⟨st.nextId, [u], 0⟩ : Block) :: { S with stamp := i } :: B) := by
    rw [hchain]; exact splitLink_spec minus i X B S u st.nextId hX hB htid
  refine ⟨?_, hsplit, ?_, ?_⟩
  · simp only [stepNeighbor, hget, hgb, if_pos hstamp]
  · intro hm
    subst hm
    rw [hsplit, hchain]
    cases X with
    | nil => simp
    | cons a X' => simp
  · intro hm hX0
    subst hm
    subst hX0
    rw [hsplit]
    simp

/-! ### Identity-level navigation lemmas for the chain -/

/-- `prevIdGo` only inspects the accumulator's identity and the identity
sequence of the scanned chain. -/
theorem prevIdGo_congr :
    ∀ (X Y : List Block) (a a' : Block), a.id = a'.id →
      X.map Block.id = Y.map Block.id →
      ∀ bid, prevIdGo a X bid = prevIdGo a' Y bid := by
  intro X
  induction X with
  | nil =>
    intro Y a a' _ hm bid
    rw [List.map_nil] at hm
    rw [List.map_eq_nil_iff.mp hm.symm]
    rfl
  | cons x xs ih =>
    intro Y a a' ha hm bid
    cases Y with
    | nil => simp at hm
    | cons y ys =>
      simp only [List.map_cons, List.cons.injEq] at hm
      obtain ⟨hxy, hm'⟩ := hm
      simp only [prevIdGo]
      by_cases hx : x.id = bid
      · rw [if_pos hx, if_pos (hxy ▸ hx), ha]
      · rw [if_neg hx, if_neg (hxy ▸ hx)]
        exact ih ys x y hxy hm' bid

/-- `prevIdOf` only inspects the identity sequence of the chain. -/
theorem prevIdOf_congr (X Y : List Block) (hm : X.map Block.id = Y.map Block.id)
    (bid : Nat) : prevIdOf X bid = prevIdOf Y bid := by
  cases X with
  | nil =>
    rw [List.map_nil] at hm
    rw [List.map_eq_nil_iff.mp hm.symm]
  | cons x xs =>
    cases Y with
    | nil => simp at hm
    | cons y ys =>
      simp only [List.map_cons, List.cons.injEq] at hm
      obtain ⟨hxy, hm'⟩ := hm
      simp only [prevIdOf]
      by_cases hx : x.id = bid
      · rw [if_pos hx, if_pos (hxy ▸ hx)]
      · rw [if_neg hx, if_neg (hxy ▸ hx)]
        exact prevIdGo_congr xs ys x y hxy hm' bid

/-- `nextIdOf` only inspects the identity sequence of the chain. -/
theorem nextIdOf_congr :
    ∀ (X Y : List Block), X.map Block.id = Y.map Block.id →
      ∀ bid, nextIdOf X bid = nextIdOf Y bid := by
  intro X
  induction X with
  | nil =>
    intro Y hm bid
    rw [List.map_nil] at hm
    rw [List.map_eq_nil_iff.mp hm.symm]
  | cons x xs ih =>
    intro Y hm bid
    cases Y with
    | nil => simp at hm
    | cons y ys =>
      simp only [List.map_cons, List.cons.injEq] at hm
      obtain ⟨hxy, hm'⟩ := hm
      simp only [nextIdOf]
      by_cases hx : x.id = bid
      · rw [if_pos hx, if_pos (hxy ▸ hx)]
        cases xs with
        | nil => cases ys with
          | nil => rfl
          | cons c cs => simp at hm'
        | cons c cs => cases ys with
          | nil => simp at hm'
          | cons d ds =>
            simp only [List.map_cons, List.cons.injEq] at hm'
            simp [hm'.1]
      · rw [if_neg hx, if_neg (hxy ▸ hx)]
        exact ih ys hm' bid

/-- Scanning for an identity present in the first part never looks past
it. -/
theorem prevIdGo_append_mem :
    ∀ (xs : List Block) (a : Block) (Y : List Block) (bid : Nat),
      bid ∈ xs.map Block.id →
      prevIdGo a (xs ++ Y) bid = prevIdGo a xs bid := by
  intro xs
  induction xs with
  | nil => intro a Y bid h; simp at h
  | cons c cs ih =>
    intro a Y bid h
    simp only [List.cons_append, prevIdGo]
    by_cases hc : c.id = bid
    · rw [if_pos hc, if_pos hc]
    · rw [if_neg hc, if_neg hc]
      refine ih c Y bid ?_
      simp only [List.map_cons, List.mem_cons] at h
      rcases h with h | h
      · exact absurd h.symm hc
      · exact h

/-- The predecessor of an identity occurring in a prefix is determined by
that prefix. -/
theorem prevIdOf_append_front (X Y : List Block) (bid : Nat)
    (h : bid ∈ X.map Block.id) :
    prevIdOf (X ++ Y) bid = prevIdOf X bid := by
  cases X with
  | nil => simp at h
  | cons x xs =>
    simp only [List.cons_append, prevIdOf]
    by_cases hx : x.id = bid
    · rw [if_pos hx, if_pos hx]
    · rw [if_neg hx, if_neg hx]
      refine prevIdGo_append_mem xs x Y bid ?_
      simp only [List.map_cons, List.mem_cons] at h
      rcases h with h | h
      · exact absurd h.symm hx
      · exact h

/-- Scanning past a whole first part whose identities all differ keeps
the last scanned block as accumulator. -/
theorem prevIdGo_append_not_mem :
    ∀ (W : List Block) (a : Block) (Y : List Block) (bid : Nat),
      bid ∉ W.map Block.id →
      prevIdGo a (W ++ Y) bid = prevIdGo (W.getLastD a) Y bid := by
  intro W
  induction W with
  | nil => intro a Y bid _; rfl
  | cons c cs ih =>
    intro a Y bid h
    simp only [List.map_cons, List.mem_cons, not_or] at h
    have hc : ¬c.id = bid := fun hcc => h.1 hcc.symm
    simp only [List.cons_append, prevIdGo, if_neg hc, List.getLastD_cons]
    exact ih c Y bid h.2

/-- The successor scan ignores a first part whose identities all differ. -/
theorem nextIdOf_append_not_mem :
    ∀ (W Y : List Block) (bid : Nat), bid ∉ W.map Block.id →
      nextIdOf (W ++ Y) bid = nextIdOf Y bid := by
  intro W
  induction W with
  | nil => intro Y bid _; rfl
  | cons c cs ih =>
    intro Y bid h
    simp only [List.map_cons, List.mem_cons, not_or] at h
    have hc : ¬c.id = bid := fun hcc => h.1 hcc.symm
    simp only [List.cons_append, nextIdOf, if_neg hc]
    exact ih Y bid h.2

/-- The successor of an identity occurring in a prefix either is
determined by the prefix, or the identity sits at the very end of the
prefix and the successor is the head of whatever follows. -/
theorem nextIdOf_append_front :
    ∀ (X Y : List Block) (bid : Nat), bid ∈ X.map Block.id →
      (∃ t, nextIdOf X bid = some t ∧ nextIdOf (X ++ Y) bid = some t) ∨
      (nextIdOf X bid = none ∧ nextIdOf (X ++ Y) bid = Y.head?.map Block.id) := by
  intro X
  induction X with
  | nil => intro Y bid h; simp at h
  | cons x xs ih =>
    intro Y bid h
    simp only [List.cons_append, nextIdOf]
    by_cases hx : x.id = bid
    · rw [if_pos hx, if_pos hx]
      cases xs with
      | nil => right; simp
      | cons c cs => left; exact ⟨c.id, by simp, by simp⟩
    · rw [if_neg hx, if_neg hx]
      refine ih Y bid ?_
      simp only [List.map_cons, List.mem_cons] at h
      rcases h with h | h
      · exact absurd h.symm hx
      · exact h

/-- A found predecessor identity belongs to the scanned chain or is the
accumulator. -/
theorem prevIdGo_some_mem :
    ∀ (X : List Block) (a : Block) (bid t : Nat),
      prevIdGo a X bid = some t → t = a.id ∨ t ∈ X.map Block.id := by
  intro X
  induction X with
  | nil => intro a bid t h; simp [prevIdGo] at h
  | cons c cs ih =>
    intro a bid t h
    simp only [prevIdGo] at h
    by_cases hc : c.id = bid
    · rw [if_pos hc] at h
      left
      exact (Option.some.injEq _ _ ▸ h).symm
    · rw [if_neg hc] at h
      rcases ih c bid t h with h' | h'
      · right; simp [h']
      · right; simp [h']

/-- A found predecessor identity belongs to the chain. -/
theorem prevIdOf_some_mem (X : List Block) (bid t : Nat)
    (h : prevIdOf X bid = some t) : t ∈ X.map Block.id := by
  cases X with
  | nil => simp [prevIdOf] at h
  | cons x xs =>
    simp only [prevIdOf] at h
    by_cases hx : x.id = bid
    · rw [if_pos hx] at h; simp at h
    · rw [if_neg hx] at h
      rcases prevIdGo_some_mem xs x bid t h with h' | h'
      · simp [h']
      · simp [h']

/-- A found successor identity belongs to the chain. -/
theorem nextIdOf_some_mem :
    ∀ (X : List Block) (bid t : Nat),
      nextIdOf X bid = some t → t ∈ X.map Block.id := by
  intro X
  induction X with
  | nil => intro bid t h; simp [nextIdOf] at h
  | cons x xs ih =>
    intro bid t h
    simp only [nextIdOf] at h
    by_cases hx : x.id = bid
    · rw [if_pos hx] at h
      cases xs with
      | nil => simp at h
      | cons c cs =>
        simp only [List.head?_cons, Option.map_some] at h
        simp [← Option.some.injEq _ _ ▸ h]
    · rw [if_neg hx] at h
      have := ih bid t h
      simp only [List.map_cons, List.mem_cons]
      right
      exact this

/-- Inverting a successful `getBlock`. -/
theorem getBlock_some (chain : List Block) (bid : Nat) (b : Block)
    (h : getBlock chain bid = some b) : b ∈ chain ∧ b.id = bid := by
  refine ⟨List.mem_of_find?_eq_some h, ?_⟩
  have := List.find?_some h
  simpa using this

/-- Any chain member with duplicate-free identities splits the chain into
a prefix and suffix avoiding its identity. -/
theorem chain_decomp (chain : List Block) (b : Block) (hb : b ∈ chain)
    (hnd : (chain.map Block.id).Nodup) :
    ∃ X B, chain = X ++ b :: B ∧ b.id ∉ X.map Block.id ∧ b.id ∉ B.map Block.id := by
  obtain ⟨X, B, rfl⟩ := List.append_of_mem hb
  refine ⟨X, B, rfl, ?_, ?_⟩
  · rw [List.map_append, List.map_cons] at hnd
    have hdisj := List.disjoint_of_nodup_append hnd
    exact fun hc => hdisj hc (List.mem_cons_self _ _)
  · rw [List.map_append, List.map_cons] at hnd
    have := (List.nodup_append.mp hnd).2.1
    exact (List.nodup_cons.mp this).1

/-! ### Coherence of the partition state and the per-round invariant -/

/-- The structural well-formedness the algorithm maintains between
neighbour moves: block identities are unique and fresh, member lists are
duplicate-free and pairwise disjoint, and the `get_set` map agrees with
block membership in both directions. -/
structure Coherent (st : St) : Prop where
  idsNodup : (st.chain.map Block.id).Nodup
  idsLt : ∀ b ∈ st.chain, b.id < st.nextId
  memNodup : ∀ b ∈ st.chain, b.members.Nodup
  memDisj : ∀ b ∈ st.chain, ∀ b' ∈ st.chain, ∀ x : V,
    x ∈ b.members → x ∈ b'.members → b = b'
  getSetMem : ∀ (x : V) (sid : Nat), st.getSet x = some sid →
    ∃ b, b ∈ st.chain ∧ b.id = sid ∧ x ∈ b.members
  memGetSet : ∀ b ∈ st.chain, ∀ x ∈ b.members, st.getSet x = some b.id

/-- The invariant maintained while walking one emitted vertex's neighbour
list in round `i`, where `n₀` is the fresh-identity watermark at the
start of the round (blocks with identity `≥ n₀` were created during this
round) and `log` records the moves performed so far this round. -/
structure RoundInv (minus : Bool) (i n₀ : Nat) (st : St) (log : List LogEntry) : Prop where
  coh : Coherent st
  lb : n₀ ≤ st.nextId
  stampCases : ∀ b ∈ st.chain, b.stamp < i ∨
    (b.stamp = i ∧ b.id < n₀ ∧ ∃ t, adjOf minus st.chain b.id = some t ∧ n₀ ≤ t ∧
      (∃ e ∈ log, e.created = true ∧ e.src = b.id ∧ e.tgt = t) ∧
      (∀ e ∈ log, e.src = b.id → e.tgt = t))
  logRange : ∀ e ∈ log, e.src < n₀ ∧ n₀ ≤ e.tgt ∧ e.tgt < st.nextId
  logFun : ∀ e ∈ log, ∀ e' ∈ log, e.src = e'.src → e.tgt = e'.tgt
  logCreate : ∀ s : Nat, (log.filter fun e => e.created && e.src == s).length ≤ 1
  newBlocks : ∀ b ∈ st.chain, n₀ ≤ b.id →
    b.stamp = 0 ∧ ∀ x ∈ b.members, ∃ e ∈ log, e.u = x
  createStamp : ∀ e ∈ log, e.created = true → ∀ b ∈ st.chain, b.id = e.src →
    b.stamp = i
  nonCreate : ∀ e ∈ log, e.created = false →
    ∃ e' ∈ log, e'.created = true ∧ e'.src = e.src

/-- Two chain members with equal identities coincide when identities are
duplicate-free. -/
theorem eq_of_mem_of_id_eq (chain : List Block)
    (hnd : (chain.map Block.id).Nodup) (b b' : Block) (hb : b ∈ chain)
    (hb' : b' ∈ chain) (h : b.id = b'.id) : b = b' :=
  List.inj_on_of_nodup_map hnd hb hb' h

/-- The step equation for the skip path (`S is None`, lines 723-725). -/
theorem stepNeighbor_skip_eq (minus : Bool) (i : Nat) (st : St) (u : V)
    (hget : st.getSet u = none) :
    stepNeighbor minus i st (some u) = .ok (st, none) := by
  simp only [stepNeighbor, hget]

/-- The step equation for the split path (`last_processed < i`,
lines 730-751). -/
theorem stepNeighbor_create_eq (minus : Bool) (i : Nat) (st : St) (u : V)
    (sid : Nat) (S : Block) (hget : st.getSet u = some sid)
    (hgb : getBlock st.chain sid = some S) (hstamp : S.stamp < i) :
    stepNeighbor minus i st (some u) =
      .ok ({ st with
          chain := removeFromBlock (splitLink minus i st.chain sid u st.nextId) sid u,
          nextId := st.nextId + 1,
          getSet := fun x => if x = u then some st.nextId else st.getSet x },
        some ⟨u, sid, st.nextId, true⟩) := by
  simp only [stepNeighbor, hget, hgb, if_pos hstamp]

/-- The step equation for the reuse path (`last_processed = i`,
lines 752-756): the neighbour is appended to the block on the `d2` side
of its current block. -/
theorem stepNeighbor_reuse_eq (minus : Bool) (i : Nat) (st : St) (u : V)
    (sid : Nat) (S : Block) (tid : Nat) (hget : st.getSet u = some sid)
    (hgb : getBlock st.chain sid = some S) (hstamp : ¬S.stamp < i)
    (hadj : adjOf minus st.chain sid = some tid) :
    stepNeighbor minus i st (some u) =
      .ok ({ st with
          chain := removeFromBlock
            (updateBlock st.chain tid fun b =>
              { b with members := b.members ++ [u] }) sid u,
          getSet := fun x => if x = u then some tid else st.getSet x },
        some ⟨u, sid, tid, false⟩) := by
  simp only [stepNeighbor, hget, hgb, if_neg hstamp, hadj]

/-- `updateBlock` with a member-only rewrite preserves the identity
sequence of the chain. -/
theorem updateBlock_map_id (chain : List Block) (bid : Nat) (f : Block → Block)
    (hf : ∀ b, (f b).id = b.id) :
    (updateBlock chain bid f).map Block.id = chain.map Block.id := by
  unfold updateBlock
  rw [List.map_map]
  refine List.map_congr_left ?_
  intro b _
  by_cases hb : b.id = bid
  · simp [hb, hf]
  · simp [hb]

/-- Membership in an updated chain. -/
theorem mem_updateBlock (chain : List Block) (bid : Nat) (f : Block → Block)
    (b' : Block) :
    b' ∈ updateBlock chain bid f ↔
      ∃ b ∈ chain, b' = if b.id = bid then f b else b := by
  unfold updateBlock
  simp only [List.mem_map]
  constructor
  · rintro ⟨b, hb, rfl⟩; exact ⟨b, hb, rfl⟩
  · rintro ⟨b, hb, rfl⟩; exact ⟨b, hb, rfl⟩

/-- Computation of the removal step after a standard-mode split: the
fresh block stays immediately before the source, which is unlinked when
the removed vertex was its last member. -/
theorem removeFromBlock_split_std (i : Nat) (X B : List Block) (S : Block)
    (u : V) (tid : Nat) (hX : S.id ∉ X.map Block.id) (hB : S.id ∉ B.map Block.id)
    (htid : ¬tid = S.id) :
    removeFromBlock (X ++ (⟨tid, [u], 0⟩ : Block) :: { S with stamp := i } :: B) S.id u =
      X ++ (⟨tid, [u], 0⟩ : Block) ::
        ((if S.members.erase u = [] then []
          else [(⟨S.id, S.members.erase u, i⟩ : Block)]) ++ B) := by
  unfold removeFromBlock
  rw [show X ++ (⟨tid, [u], 0⟩ : Block) :: { S with stamp := i } :: B
        = (X ++ [(⟨tid, [u], 0⟩ : Block)]) ++ [{ S with stamp := i }] ++ B by simp]
  rw [updateBlock_append, updateBlock_append]
  rw [updateBlock_eq_of_not_mem _ _ (X ++ [(⟨tid, [u], 0⟩ : Block)]) (by
    intro hc
    rcases (by simpa using hc : S.id ∈ X.map Block.id ∨ S.id = tid) with h | h
    · exact hX h
    · exact htid h.symm)]
  rw [updateBlock_eq_of_not_mem _ _ B hB]
  rw [show updateBlock [{ S with stamp := i }] S.id
        (fun b => { b with members := b.members.erase u })
      = [(⟨S.id, S.members.erase u, i⟩ : Block)] by
    simp [updateBlock]]
  rw [dropEmpty_append, dropEmpty_append]
  rw [dropEmpty_eq_of_not_mem _ (X ++ [(⟨tid, [u], 0⟩ : Block)]) (by
    intro hc
    rcases (by simpa using hc : S.id ∈ X.map Block.id ∨ S.id = tid) with h | h
    · exact hX h
    · exact htid h.symm)]
  rw [dropEmpty_eq_of_not_mem _ B hB]
  rw [dropEmpty_single (⟨S.id, S.members.erase u, i⟩ : Block) S.id rfl]
  simp

/-- Computation of the removal step after a minus-mode split: the fresh
block stays immediately after the source, which is unlinked when the
removed vertex was its last member. -/
theorem removeFromBlock_split_minus (i : Nat) (X B : List Block) (S : Block)
    (u : V) (tid : Nat) (hX : S.id ∉ X.map Block.id) (hB : S.id ∉ B.map Block.id)
    (htid : ¬tid = S.id) :
    removeFromBlock (X ++ { S with stamp := i } :: (⟨tid, [u], 0⟩ : Block) :: B) S.id u =
      X ++ ((if S.members.erase u = [] then []
             else [(⟨S.id, S.members.erase u, i⟩ : Block)]) ++
        (⟨tid, [u], 0⟩ : Block) :: B) := by
  unfold removeFromBlock
  rw [show X ++ { S with stamp := i } :: (⟨tid, [u], 0⟩ : Block) :: B
        = X ++ [{ S with stamp := i }] ++ ((⟨tid, [u], 0⟩ : Block) :: B) by simp]
  rw [updateBlock_append, updateBlock_append]
  rw [updateBlock_eq_of_not_mem _ _ X hX]
  rw [updateBlock_eq_of_not_mem _ _ ((⟨tid, [u], 0⟩ : Block) :: B) (by
    intro hc
    rcases (by simpa using hc : S.id = tid ∨ S.id ∈ B.map Block.id) with h | h
    · exact htid h.symm
    · exact hB h)]
  rw [show updateBlock [{ S with stamp := i }] S.id
        (fun b => { b with members := b.members.erase u })
      = [(⟨S.id, S.members.erase u, i⟩ : Block)] by
    simp [updateBlock]]
  rw [dropEmpty_append, dropEmpty_append]
  rw [dropEmpty_eq_of_not_mem _ X hX]
  rw [dropEmpty_eq_of_not_mem _ ((⟨tid, [u], 0⟩ : Block) :: B) (by
    intro hc
    rcases (by simpa using hc : S.id = tid ∨ S.id ∈ B.map Block.id) with h | h
    · exact htid h.symm
    · exact hB h)]
  rw [dropEmpty_single (⟨S.id, S.members.erase u, i⟩ : Block) S.id rfl]
  simp

/-- Predecessor scan across a boundary: past a nonempty prefix avoiding
the identity, the result is the prefix's last block when the identity
heads the suffix, and is otherwise determined inside the suffix. -/
theorem prevIdOf_append_suffix (W : List Block) (y : Block) (Y' : List Block)
    (bid : Nat) (hW : W ≠ []) (h : bid ∉ W.map Block.id) :
    prevIdOf (W ++ y :: Y') bid =
      if y.id = bid then some ((W.getLastD y).id) else prevIdGo y Y' bid := by
  cases W with
  | nil => exact absurd rfl hW
  | cons w ws =>
    simp only [List.map_cons, List.mem_cons, not_or] at h
    have hw : ¬w.id = bid := fun hc => h.1 hc.symm
    simp only [List.cons_append, prevIdOf, if_neg hw]
    rw [prevIdGo_append_not_mem ws w (y :: Y') bid h.2]
    rw [List.getLastD_cons]
    simp only [prevIdGo]

/-- After a standard-mode split of `S`, the freshly linked block is the
chain predecessor of what remains of `S`. -/
theorem adjNew_std (X B : List Block) (S2 T : Block)
    (hX : S2.id ∉ X.map Block.id) (hT : ¬T.id = S2.id) :
    prevIdOf (X ++ T :: S2 :: B) S2.id = some T.id := by
  rw [show X ++ T :: S2 :: B = (X ++ [T]) ++ S2 :: B by simp]
  rw [prevIdOf_append_suffix (X ++ [T]) S2 B S2.id (by simp) (by
    intro hc
    rcases (by simpa using hc : S2.id ∈ X.map Block.id ∨ S2.id = T.id) with h | h
    · exact hX h
    · exact hT h.symm)]
  rw [if_pos rfl, List.getLastD_concat]

/-- After a minus-mode split of `S`, the freshly linked block is the
chain successor of what remains of `S`. -/
theorem adjNew_minus (X B : List Block) (S2 T : Block)
    (hX : S2.id ∉ X.map Block.id) :
    nextIdOf (X ++ S2 :: T :: B) S2.id = some T.id := by
  rw [nextIdOf_append_not_mem X (S2 :: T :: B) S2.id hX]
  simp [nextIdOf]

/-- Stability of predecessor links under a standard-mode split
elsewhere: a block of the old chain whose identity differs from the
split source, the fresh block, and the leftover keeps its predecessor. -/
theorem adjStable_std (X B : List Block) (S T : Block) (M : List Block)
    (b : Block) (t : Nat)
    (hbX : b ∈ X ∨ b ∈ B)
    (hXdisj : b ∈ B → b.id ∉ X.map Block.id)
    (hbtid : ¬b.id = T.id)
    (hbnS : ¬b.id = S.id)
    (hMid : ∀ a ∈ M.map Block.id, a = S.id)
    (ht : ¬t = S.id)
    (hold : prevIdOf (X ++ S :: B) b.id = some t) :
    prevIdOf (X ++ T :: (M ++ B)) b.id = some t := by
  rcases hbX with hb | hb
  · have hmem : b.id ∈ X.map Block.id := List.mem_map_of_mem Block.id hb
    rw [prevIdOf_append_front X (S :: B) b.id hmem] at hold
    rw [prevIdOf_append_front X (T :: (M ++ B)) b.id hmem]
    exact hold
  · have hnX : b.id ∉ X.map Block.id := hXdisj hb
    cases B with
    | nil => exact absurd hb (List.not_mem_nil b)
    | cons y B' =>
      rw [show X ++ S :: y :: B' = (X ++ [S]) ++ y :: B' by simp] at hold
      rw [prevIdOf_append_suffix (X ++ [S]) y B' b.id (by simp) (by
        intro hc
        rcases (by simpa using hc : b.id ∈ X.map Block.id ∨ b.id = S.id) with h | h
        · exact hnX h
        · exact hbnS h)] at hold
      by_cases hy : y.id = b.id
      · rw [if_pos hy, List.getLastD_concat] at hold
        have : t = S.id := by
          have := Option.some.inj hold
          omega
        exact absurd this ht
      · rw [if_neg hy] at hold
        rw [show X ++ T :: (M ++ (y :: B')) = (X ++ T :: M) ++ y :: B' by simp]
        rw [prevIdOf_append_suffix (X ++ T :: M) y B' b.id (by simp) (by
          intro hc
          rcases (by simpa using hc :
              b.id ∈ X.map Block.id ∨ b.id = T.id ∨ b.id ∈ M.map Block.id)
            with h | h | h
          · exact hnX h
          · exact hbtid h
          · exact hbnS (hMid _ h ▸ rfl))]
        rw [if_neg hy]
        exact hold

/-- Stability of successor links under a minus-mode split elsewhere. -/
theorem adjStable_minus (X B : List Block) (S T : Block) (M : List Block)
    (b : Block) (t : Nat)
    (hbX : b ∈ X ∨ b ∈ B)
    (hXdisj : b ∈ B → b.id ∉ X.map Block.id)
    (hbtid : ¬b.id = T.id)
    (hbnS : ¬b.id = S.id)
    (hMid : ∀ a ∈ M.map Block.id, a = S.id)
    (ht : ¬t = S.id)
    (hold : nextIdOf (X ++ S :: B) b.id = some t) :
    nextIdOf (X ++ (M ++ T :: B)) b.id = some t := by
  rcases hbX with hb | hb
  · have hmem : b.id ∈ X.map Block.id := List.mem_map_of_mem Block.id hb
    rcases nextIdOf_append_front X (S :: B) b.id hmem with ⟨t', h1, h2⟩ | ⟨h1, h2⟩
    · rw [h2] at hold
      rcases nextIdOf_append_front X (M ++ T :: B) b.id hmem with
        ⟨t'', h1', h2'⟩ | ⟨h1', h2'⟩
      · rw [h1'] at h1
        rw [h2', ← hold, Option.some.inj h1]
      · rw [h1'] at h1
        simp at h1
    · rw [h2] at hold
      simp only [List.head?_cons, Option.map_some] at hold
      exact absurd (Option.some.inj hold).symm ht
  · have hnX : b.id ∉ X.map Block.id := hXdisj hb
    have hbB : b.id ∈ B.map Block.id := List.mem_map_of_mem Block.id hb
    rw [show X ++ S :: B = (X ++ [S]) ++ B by simp] at hold
    rw [nextIdOf_append_not_mem (X ++ [S]) B b.id (by
      intro hc
      rcases (by simpa using hc : b.id ∈ X.map Block.id ∨ b.id = S.id) with h | h
      · exact hnX h
      · exact hbnS h)] at hold
    rw [show X ++ (M ++ T :: B) = (X ++ M ++ [T]) ++ B by simp]
    rw [nextIdOf_append_not_mem (X ++ M ++ [T]) B b.id (by
      intro hc
      rcases (by simpa using hc :
          b.id ∈ X.map Block.id ∨ b.id ∈ M.map Block.id ∨ b.id = T.id)
        with h | h | h
      · exact hnX h
      · exact hbnS (hMid _ h ▸ rfl)
      · exact hbtid h)]
    exact hold

/-- Walking one neighbour through the split path preserves the round
invariant and logs a creation entry for the source block. -/
theorem createPreserves (minus : Bool) (i n₀ : Nat) (hi : 0 < i) (st : St)
    (log : List LogEntry) (u : V) (sid : Nat) (S : Block)
    (inv : RoundInv minus i n₀ st log)
    (hu_new : ∀ e ∈ log, e.u ≠ u)
    (hget : st.getSet u = some sid)
    (hgb : getBlock st.chain sid = some S)
    (hstampS : S.stamp < i) :
    RoundInv minus i n₀
      { st with
        chain := removeFromBlock (splitLink minus i st.chain sid u st.nextId) sid u,
        nextId := st.nextId + 1,
        getSet := fun x => if x = u then some st.nextId else st.getSet x }
      (log ++ [⟨u, sid, st.nextId, true⟩]) := by
  obtain ⟨hSmem, hSid⟩ := getBlock_some st.chain sid S hgb
  subst hSid
  obtain ⟨X, B, hchain, hXid, hBid⟩ := chain_decomp st.chain S hSmem inv.coh.idsNodup
  have hu_mem : u ∈ S.members := by
    obtain ⟨b, hb, hbid, hub⟩ := inv.coh.getSetMem u S.id hget
    exact eq_of_mem_of_id_eq st.chain inv.coh.idsNodup b S hb hSmem hbid ▸ hub
  have hsid_lt : S.id < n₀ := by
    by_contra hcon
    push_neg at hcon
    obtain ⟨_, hlogd⟩ := inv.newBlocks S hSmem hcon
    obtain ⟨e, he, heu⟩ := hlogd u hu_mem
    exact hu_new e he heu
  have hSlt : S.id < st.nextId := inv.coh.idsLt S hSmem
  have htidne : ¬st.nextId = S.id := by omega
  have hn0 : n₀ ≤ st.nextId := inv.lb
  have hnosrc : ∀ e ∈ log, ¬e.src = S.id := by
    intro e he hsrc
    have hstampi : S.stamp = i := by
      by_cases hc : e.created = true
      · exact inv.createStamp e he hc S hSmem hsrc.symm
      · obtain ⟨e', he', hc', hsrc'⟩ := inv.nonCreate e he (by
          cases hcc : e.created
          · rfl
          · exact absurd hcc hc)
        exact inv.createStamp e' he' hc' S hSmem (by rw [hsrc', hsrc])
    omega
  have hndAll : ((X ++ S :: B).map Block.id).Nodup := hchain ▸ inv.coh.idsNodup
  have hXB_facts : (X.map Block.id).Nodup ∧ (B.map Block.id).Nodup ∧
      ∀ a ∈ X.map Block.id, a ∉ B.map Block.id := by
    rw [List.map_append, List.map_cons] at hndAll
    obtain ⟨h1, h2, h3⟩ := List.nodup_append.mp hndAll
    exact ⟨h1, (List.nodup_cons.mp h2).2,
      fun a ha hab => h3 ha (List.mem_cons_of_mem _ hab)⟩
  have hOldMem : ∀ b : Block, b ∈ X ∨ b ∈ B → b ∈ st.chain := by
    intro b hb
    rw [hchain]
    rcases hb with hb | hb
    · exact List.mem_append_left _ hb
    · exact List.mem_append_right _ (List.mem_cons_of_mem _ hb)
  have hbneS : ∀ b : Block, b ∈ X ∨ b ∈ B → ¬b.id = S.id := by
    intro b hb hc
    rcases hb with hb | hb
    · exact hXid (hc ▸ List.mem_map_of_mem Block.id hb)
    · exact hBid (hc ▸ List.mem_map_of_mem Block.id hb)
  have hbltn : ∀ b : Block, b ∈ X ∨ b ∈ B → b.id < st.nextId :=
    fun b hb => inv.coh.idsLt b (hOldMem b hb)
  have huOnlyS : ∀ b : Block, b ∈ X ∨ b ∈ B → u ∉ b.members := by
    intro b hb hub
    exact hbneS b hb
      (congrArg Block.id (inv.coh.memDisj b (hOldMem b hb) S hSmem u hub hu_mem))
  have hXdisjB : ∀ b : Block, b ∈ B → b.id ∉ X.map Block.id := by
    intro b hb hc
    exact hXB_facts.2.2 _ hc (List.mem_map_of_mem Block.id hb)
  have hidXlt : ∀ a ∈ X.map Block.id, a < st.nextId := by
    intro a ha
    obtain ⟨b, hb, rfl⟩ := List.mem_map.mp ha
    exact hbltn b (Or.inl hb)
  have hidBlt : ∀ a ∈ B.map Block.id, a < st.nextId := by
    intro a ha
    obtain ⟨b, hb, rfl⟩ := List.mem_map.mp ha
    exact hbltn b (Or.inr hb)
  have hS2nodup : (S.members.erase u).Nodup := (inv.coh.memNodup S hSmem).erase u
  have hSnodup : S.members.Nodup := inv.coh.memNodup S hSmem
  have hsplit : splitLink minus i st.chain S.id u st.nextId =
      X ++ (if minus then { S with stamp := i } :: (⟨st.nextId, [u], 0⟩ : Block) :: B
            else (⟨st.nextId, [u], 0⟩ : Block) :: { S with stamp := i } :: B) := by
    rw [hchain]
    exact splitLink_spec minus i X B S u st.nextId hXid hBid htidne
  obtain ⟨M, hMdef⟩ : ∃ M, (if S.members.erase u = [] then ([] : List Block)
      else [(⟨S.id, S.members.erase u, i⟩ : Block)]) = M := ⟨_, rfl⟩
  have hMspec : (S.members.erase u = [] ∧ M = []) ∨
      (S.members.erase u ≠ [] ∧ M = [(⟨S.id, S.members.erase u, i⟩ : Block)]) := by
    by_cases hc : S.members.erase u = []
    · exact Or.inl ⟨hc, by rw [← hMdef, if_pos hc]⟩
    · exact Or.inr ⟨hc, by rw [← hMdef, if_neg hc]⟩
  have hMmem : ∀ b ∈ M, b = (⟨S.id, S.members.erase u, i⟩ : Block) := by
    intro b hb
    rcases hMspec with ⟨_, hM⟩ | ⟨_, hM⟩
    · rw [hM] at hb; exact absurd hb (List.not_mem_nil b)
    · rw [hM] at hb; simpa using hb
  have hMid : ∀ a ∈ M.map Block.id, a = S.id := by
    intro a ha
    obtain ⟨b, hb, rfl⟩ := List.mem_map.mp ha
    rw [hMmem b hb]
  cases minus with
  | false =>
    rw [if_neg (by simp)] at hsplit
    have hchainN : removeFromBlock
        (splitLink false i st.chain S.id u st.nextId) S.id u =
        X ++ (⟨st.nextId, [u], 0⟩ : Block) :: (M ++ B) := by
      rw [hsplit, removeFromBlock_split_std i X B S u st.nextId hXid hBid htidne,
        hMdef]
    rw [hchainN]
    have hmemN : ∀ b : Block, b ∈ X ++ (⟨st.nextId, [u], 0⟩ : Block) :: (M ++ B) →
        b ∈ X ∨ b = (⟨st.nextId, [u], 0⟩ : Block) ∨ b ∈ M ∨ b ∈ B := by
      intro b hb
      rcases List.mem_append.mp hb with h | h
      · exact Or.inl h
      · rcases List.mem_cons.mp h with h | h
        · exact Or.inr (Or.inl h)
        · rcases List.mem_append.mp h with h | h
          · exact Or.inr (Or.inr (Or.inl h))
          · exact Or.inr (Or.inr (Or.inr h))
    have hTmemN : (⟨st.nextId, [u], 0⟩ : Block) ∈
        X ++ (⟨st.nextId, [u], 0⟩ : Block) :: (M ++ B) :=
      List.mem_append_right _ (List.mem_cons_self _ _)
    have hXmemN : ∀ b ∈ X, b ∈ X ++ (⟨st.nextId, [u], 0⟩ : Block) :: (M ++ B) :=
      fun b hb => List.mem_append_left _ hb
    have hBmemN : ∀ b ∈ B, b ∈ X ++ (⟨st.nextId, [u], 0⟩ : Block) :: (M ++ B) :=
      fun b hb => List.mem_append_right _
        (List.mem_cons_of_mem _ (List.mem_append_right _ hb))
    have hMmemN : ∀ b ∈ M, b ∈ X ++ (⟨st.nextId, [u], 0⟩ : Block) :: (M ++ B) :=
      fun b hb => List.mem_append_right _
        (List.mem_cons_of_mem _ (List.mem_append_left _ hb))
    refine ⟨⟨?_, ?_, ?_, ?_, ?_, ?_⟩, ?_, ?_, ?_, ?_, ?_, ?_, ?_, ?_⟩
    · -- idsNodup
      simp only [List.map_append, List.map_cons]
      refine List.Nodup.append hXB_facts.1 ?_ ?_
      · rw [List.nodup_cons]
        constructor
        · intro hc
          rcases List.mem_append.mp hc with h | h
          · exact htidne (hMid _ h)
          · exact absurd (hidBlt _ h) (by omega)
        · rcases hMspec with ⟨_, hM⟩ | ⟨_, hM⟩
          · rw [hM]; simpa using hXB_facts.2.1
          · rw [hM]
            rw [show ([(⟨S.id, S.members.erase u, i⟩ : Block)].map Block.id)
                = [S.id] from rfl]
            rw [List.singleton_append, List.nodup_cons]
            exact ⟨hBid, hXB_facts.2.1⟩
      · intro a ha hc
        rcases List.mem_cons.mp hc with h | h
        · rw [h] at ha
          exact absurd (hidXlt _ ha) (by omega)
        · rcases List.mem_append.mp h with h | h
          · exact hXid (hMid _ h ▸ ha)
          · exact hXB_facts.2.2 a ha h
    · -- idsLt
      intro b hb
      show b.id < st.nextId + 1
      rcases hmemN b hb with h | h | h | h
      · have := hbltn b (Or.inl h); omega
      · have hbid : b.id = st.nextId := congrArg Block.id h; omega
      · have hbid0 := congrArg Block.id (hMmem b h)
        have hbid : b.id = S.id := hbid0
        omega
      · have := hbltn b (Or.inr h); omega
    · -- memNodup
      intro b hb
      rcases hmemN b hb with h | h | h | h
      · exact inv.coh.memNodup b (hOldMem b (Or.inl h))
      · rw [h]; simp
      · rw [hMmem b h]; exact hS2nodup
      · exact inv.coh.memNodup b (hOldMem b (Or.inr h))
    · -- memDisj
      intro b hb b' hb' x hxb hxb'
      have hxT : ∀ c : Block, c = (⟨st.nextId, [u], 0⟩ : Block) →
          x ∈ c.members → x = u := by
        intro c hc hx
        rw [hc] at hx
        simpa using hx
      have hxM : ∀ c ∈ M, x ∈ c.members → x ≠ u ∧ x ∈ S.members := by
        intro c hc hx
        rw [hMmem c hc] at hx
        exact hSnodup.mem_erase_iff.mp hx
      have hxOld : ∀ c : Block, c ∈ X ∨ c ∈ B → x ∈ c.members →
          x ≠ u ∧ x ∉ S.members := by
        intro c hc hx
        constructor
        · intro hxu
          exact huOnlyS c hc (hxu ▸ hx)
        · intro hxS
          exact hbneS c hc
            (congrArg Block.id (inv.coh.memDisj c (hOldMem c hc) S hSmem x hx hxS))
      rcases hmemN b hb with h1 | h1 | h1 | h1 <;>
        rcases hmemN b' hb' with h2 | h2 | h2 | h2
      · exact inv.coh.memDisj b (hOldMem b (Or.inl h1)) b'
          (hOldMem b' (Or.inl h2)) x hxb hxb'
      · exact absurd (hxT b' h2 hxb') (hxOld b (Or.inl h1) hxb).1
      · exact absurd (hxM b' h2 hxb').2 (hxOld b (Or.inl h1) hxb).2
      · exact inv.coh.memDisj b (hOldMem b (Or.inl h1)) b'
          (hOldMem b' (Or.inr h2)) x hxb hxb'
      · exact absurd (hxT b h1 hxb) (hxOld b' (Or.inl h2) hxb').1
      · rw [h1, h2]
      · exact absurd (hxT b h1 hxb) (hxM b' h2 hxb').1
      · exact absurd (hxT b h1 hxb) (hxOld b' (Or.inr h2) hxb').1
      · exact absurd (hxM b h1 hxb).2 (hxOld b' (Or.inl h2) hxb').2
      · exact absurd (hxT b' h2 hxb') (hxM b h1 hxb).1
      · rw [hMmem b h1, hMmem b' h2]
      · exact absurd (hxM b h1 hxb).2 (hxOld b' (Or.inr h2) hxb').2
      · exact inv.coh.memDisj b (hOldMem b (Or.inr h1)) b'
          (hOldMem b' (Or.inl h2)) x hxb hxb'
      · exact absurd (hxT b' h2 hxb') (hxOld b (Or.inr h1) hxb).1
      · exact absurd (hxM b' h2 hxb').2 (hxOld b (Or.inr h1) hxb).2
      · exact inv.coh.memDisj b (hOldMem b (Or.inr h1)) b'
          (hOldMem b' (Or.inr h2)) x hxb hxb'
    · -- getSetMem
      intro x sid2 hx
      dsimp only at hx
      by_cases hxu : x = u
      · rw [if_pos hxu] at hx
        refine ⟨⟨st.nextId, [u], 0⟩, hTmemN, ?_, by simp [hxu]⟩
        simpa using (Option.some.inj hx)
      · rw [if_neg hxu] at hx
        obtain ⟨b, hb, hbid, hxb⟩ := inv.coh.getSetMem x sid2 hx
        rw [hchain] at hb
        rcases List.mem_append.mp hb with h | h
        · exact ⟨b, hXmemN b h, hbid, hxb⟩
        · rcases List.mem_cons.mp h with h | h
          · rw [h] at hbid hxb
            have hxe : x ∈ S.members.erase u :=
              hSnodup.mem_erase_iff.mpr ⟨hxu, hxb⟩
            rcases hMspec with ⟨hemp, _⟩ | ⟨_, hM⟩
            · exact absurd hemp (List.ne_nil_of_mem hxe)
            · refine ⟨⟨S.id, S.members.erase u, i⟩,
                hMmemN _ (by rw [hM]; exact List.mem_singleton_self _), hbid, hxe⟩
          · exact ⟨b, hBmemN b h, hbid, hxb⟩
    · -- memGetSet
      intro b hb x hx
      dsimp only
      rcases hmemN b hb with h | h | h | h
      · have hxu : ¬x = u := fun hc => huOnlyS b (Or.inl h) (hc ▸ hx)
        rw [if_neg hxu]
        exact inv.coh.memGetSet b (hOldMem b (Or.inl h)) x hx
      · rw [h] at hx ⊢
        simp only [List.mem_singleton] at hx
        rw [if_pos hx]
      · rw [hMmem b h] at hx ⊢
        have := hSnodup.mem_erase_iff.mp hx
        rw [if_neg this.1]
        exact inv.coh.memGetSet S hSmem x this.2
      · have hxu : ¬x = u := fun hc => huOnlyS b (Or.inr h) (hc ▸ hx)
        rw [if_neg hxu]
        exact inv.coh.memGetSet b (hOldMem b (Or.inr h)) x hx
    · -- lb
      show n₀ ≤ st.nextId + 1
      omega
    · -- stampCases
      intro b hb
      rcases hmemN b hb with h | h | h | h
      · rcases inv.stampCases b (hOldMem b (Or.inl h)) with hlt | hstamped
        · exact Or.inl hlt
        · obtain ⟨hsi, hbn, t, hadj, htn, ⟨ec, hec, hecc, hecs, hect⟩, hcons⟩ := hstamped
          refine Or.inr ⟨hsi, hbn, t, ?_, htn,
            ⟨ec, List.mem_append_left _ hec, hecc, hecs, hect⟩, ?_⟩
          · simp only [adjOf, Bool.false_eq_true, if_false] at hadj ⊢
            rw [hchain] at hadj
            exact adjStable_std X B S (⟨st.nextId, [u], 0⟩ : Block) M b t
              (Or.inl h) (hXdisjB b) (by show ¬b.id = st.nextId; omega) (hbneS b (Or.inl h))
              hMid (by omega) hadj
          · intro e he hsrc
            rcases List.mem_append.mp he with he' | he'
            · exact hcons e he' hsrc
            · rw [List.mem_singleton.mp he'] at hsrc
              exact absurd hsrc.symm (hbneS b (Or.inl h))
      · exact Or.inl (by rw [h]; exact hi)
      · rw [hMmem b h]
        rcases hMspec with ⟨_, hM⟩ | ⟨_, hM⟩
        · rw [hM] at h; exact absurd h (List.not_mem_nil b)
        · refine Or.inr ⟨rfl, hsid_lt, st.nextId, ?_, hn0,
            ⟨⟨u, S.id, st.nextId, true⟩,
              List.mem_append_right _ (List.mem_singleton_self _), rfl, rfl, rfl⟩,
            ?_⟩
          · simp only [adjOf, Bool.false_eq_true, if_false]
            rw [hM]
            rw [show X ++ (⟨st.nextId, [u], 0⟩ : Block) ::
                ([(⟨S.id, S.members.erase u, i⟩ : Block)] ++ B)
              = X ++ (⟨st.nextId, [u], 0⟩ : Block) ::
                (⟨S.id, S.members.erase u, i⟩ : Block) :: B by simp]
            exact adjNew_std X B (⟨S.id, S.members.erase u, i⟩ : Block)
              (⟨st.nextId, [u], 0⟩ : Block) hXid htidne
          · intro e he hsrc
            rcases List.mem_append.mp he with he' | he'
            · exact absurd hsrc (hnosrc e he')
            · rw [List.mem_singleton.mp he']
      · rcases inv.stampCases b (hOldMem b (Or.inr h)) with hlt | hstamped
        · exact Or.inl hlt
        · obtain ⟨hsi, hbn, t, hadj, htn, ⟨ec, hec, hecc, hecs, hect⟩, hcons⟩ := hstamped
          refine Or.inr ⟨hsi, hbn, t, ?_, htn,
            ⟨ec, List.mem_append_left _ hec, hecc, hecs, hect⟩, ?_⟩
          · simp only [adjOf, Bool.false_eq_true, if_false] at hadj ⊢
            rw [hchain] at hadj
            exact adjStable_std X B S (⟨st.nextId, [u], 0⟩ : Block) M b t
              (Or.inr h) (hXdisjB b) (by show ¬b.id = st.nextId; omega) (hbneS b (Or.inr h))
              hMid (by omega) hadj
          · intro e he hsrc
            rcases List.mem_append.mp he with he' | he'
            · exact hcons e he' hsrc
            · rw [List.mem_singleton.mp he'] at hsrc
              exact absurd hsrc.symm (hbneS b (Or.inr h))
    · -- logRange
      intro e he
      rcases List.mem_append.mp he with he' | he'
      · obtain ⟨h1, h2, h3⟩ := inv.logRange e he'
        refine ⟨h1, h2, ?_⟩
        show e.tgt < st.nextId + 1
        omega
      · rw [List.mem_singleton.mp he']
        refine ⟨hsid_lt, hn0, ?_⟩
        show st.nextId < st.nextId + 1
        omega
    · -- logFun
      intro e he e' he' hsrc
      rcases List.mem_append.mp he with h1 | h1 <;>
        rcases List.mem_append.mp he' with h2 | h2
      · exact inv.logFun e h1 e' h2 hsrc
      · rw [List.mem_singleton.mp h2] at hsrc
        exact absurd hsrc (hnosrc e h1)
      · rw [List.mem_singleton.mp h1] at hsrc
        exact absurd hsrc.symm (hnosrc e' h2)
      · rw [List.mem_singleton.mp h1, List.mem_singleton.mp h2]
    · -- logCreate
      intro s
      rw [List.filter_append]
      by_cases hs : s = S.id
      · have h0 : log.filter (fun e => e.created && e.src == s) = [] := by
          refine List.filter_eq_nil_iff.mpr ?_
          intro e he
          simp only [Bool.and_eq_true, beq_iff_eq, not_and]
          intro _ hc
          exact hnosrc e he (hs ▸ hc)
        rw [h0, List.nil_append]
        simpa using List.length_filter_le _ [(⟨u, S.id, st.nextId, true⟩ : LogEntry)]
      · have h1 : ([(⟨u, S.id, st.nextId, true⟩ : LogEntry)].filter
            fun e => e.created && e.src == s) = [] := by
          refine List.filter_eq_nil_iff.mpr ?_
          intro e he
          rw [List.mem_singleton.mp he]
          simp only [Bool.and_eq_true, beq_iff_eq, not_and]
          intro _ hc
          exact hs hc.symm
        rw [h1, List.append_nil]
        exact inv.logCreate s
    · -- newBlocks
      intro b hb hn
      rcases hmemN b hb with h | h | h | h
      · exact ⟨(inv.newBlocks b (hOldMem b (Or.inl h)) hn).1,
          fun x hx => by
            obtain ⟨e, he, heu⟩ := (inv.newBlocks b (hOldMem b (Or.inl h)) hn).2 x hx
            exact ⟨e, List.mem_append_left _ he, heu⟩⟩
      · rw [h]
        refine ⟨rfl, ?_⟩
        intro x hx
        simp only [List.mem_singleton] at hx
        exact ⟨⟨u, S.id, st.nextId, true⟩,
          List.mem_append_right _ (List.mem_singleton_self _), hx.symm⟩
      · have hn2 : n₀ ≤ S.id := by
          rw [hMmem b h] at hn
          exact hn
        omega
      · exact ⟨(inv.newBlocks b (hOldMem b (Or.inr h)) hn).1,
          fun x hx => by
            obtain ⟨e, he, heu⟩ := (inv.newBlocks b (hOldMem b (Or.inr h)) hn).2 x hx
            exact ⟨e, List.mem_append_left _ he, heu⟩⟩
    · -- createStamp
      intro e he hec b hb hbid
      rcases List.mem_append.mp he with he' | he'
      · rcases hmemN b hb with h | h | h | h
        · exact inv.createStamp e he' hec b (hOldMem b (Or.inl h)) hbid
        · have hb2 : st.nextId = e.src := (congrArg Block.id h).symm.trans hbid
          obtain ⟨h1, _, _⟩ := inv.logRange e he'
          omega
        · have hb2 : S.id = e.src :=
            (congrArg Block.id (hMmem b h)).symm.trans hbid
          exact absurd hb2.symm (hnosrc e he')
        · exact inv.createStamp e he' hec b (hOldMem b (Or.inr h)) hbid
      · have hbid2 : b.id = S.id := by
          rw [List.mem_singleton.mp he'] at hbid
          exact hbid
        rcases hmemN b hb with h | h | h | h
        · exact absurd hbid2 (hbneS b (Or.inl h))
        · exact absurd ((congrArg Block.id h).symm.trans hbid2) htidne
        · show b.stamp = i
          rw [hMmem b h]
        · exact absurd hbid2 (hbneS b (Or.inr h))
    · -- nonCreate
      intro e he hec
      rcases List.mem_append.mp he with he' | he'
      · obtain ⟨e', he'', hc', hs'⟩ := inv.nonCreate e he' hec
        exact ⟨e', List.mem_append_left _ he'', hc', hs'⟩
      · rw [List.mem_singleton.mp he'] at hec
        simp at hec
  | true =>
    rw [if_pos rfl] at hsplit
    have hchainN : removeFromBlock
        (splitLink true i st.chain S.id u st.nextId) S.id u =
        X ++ (M ++ (⟨st.nextId, [u], 0⟩ : Block) :: B) := by
      rw [hsplit, removeFromBlock_split_minus i X B S u st.nextId hXid hBid htidne,
        hMdef]
    rw [hchainN]
    have hmemN : ∀ b : Block, b ∈ X ++ (M ++ (⟨st.nextId, [u], 0⟩ : Block) :: B) →
        b ∈ X ∨ b = (⟨st.nextId, [u], 0⟩ : Block) ∨ b ∈ M ∨ b ∈ B := by
      intro b hb
      rcases List.mem_append.mp hb with h | h
      · exact Or.inl h
      · rcases List.mem_append.mp h with h | h
        · exact Or.inr (Or.inr (Or.inl h))
        · rcases List.mem_cons.mp h with h | h
          · exact Or.inr (Or.inl h)
          · exact Or.inr (Or.inr (Or.inr h))
    have hTmemN : (⟨st.nextId, [u], 0⟩ : Block) ∈
        X ++ (M ++ (⟨st.nextId, [u], 0⟩ : Block) :: B) :=
      List.mem_append_right _ (List.mem_append_right _ (List.mem_cons_self _ _))
    have hXmemN : ∀ b ∈ X, b ∈ X ++ (M ++ (⟨st.nextId, [u], 0⟩ : Block) :: B) :=
      fun b hb => List.mem_append_left _ hb
    have hBmemN : ∀ b ∈ B, b ∈ X ++ (M ++ (⟨st.nextId, [u], 0⟩ : Block) :: B) :=
      fun b hb => List.mem_append_right _
        (List.mem_append_right _ (List.mem_cons_of_mem _ hb))
    have hMmemN : ∀ b ∈ M, b ∈ X ++ (M ++ (⟨st.nextId, [u], 0⟩ : Block) :: B) :=
      fun b hb => List.mem_append_right _ (List.mem_append_left _ hb)
    refine ⟨⟨?_, ?_, ?_, ?_, ?_, ?_⟩, ?_, ?_, ?_, ?_, ?_, ?_, ?_, ?_⟩
    · -- idsNodup
      simp only [List.map_append, List.map_cons]
      refine List.Nodup.append hXB_facts.1 ?_ ?_
      · rcases hMspec with ⟨_, hM⟩ | ⟨_, hM⟩
        · rw [hM]
          simp only [List.map_nil, List.nil_append, List.nodup_cons]
          constructor
          · intro hc
            exact absurd (hidBlt _ hc) (by omega)
          · exact hXB_facts.2.1
        · rw [hM]
          rw [show ([(⟨S.id, S.members.erase u, i⟩ : Block)].map Block.id)
              = [S.id] from rfl]
          rw [List.singleton_append, List.nodup_cons]
          refine ⟨?_, ?_⟩
          · intro hc
            rcases List.mem_cons.mp hc with h | h
            · exact htidne h.symm
            · exact hBid h
          · rw [List.nodup_cons]
            constructor
            · intro hc
              exact absurd (hidBlt _ hc) (by omega)
            · exact hXB_facts.2.1
      · intro a ha hc
        rcases List.mem_append.mp hc with h | h
        · exact hXid (hMid _ h ▸ ha)
        · rcases List.mem_cons.mp h with h | h
          · rw [h] at ha
            exact absurd (hidXlt _ ha) (by omega)
          · exact hXB_facts.2.2 a ha h
    · -- idsLt
      intro b hb
      show b.id < st.nextId + 1
      rcases hmemN b hb with h | h | h | h
      · have := hbltn b (Or.inl h); omega
      · have hbid : b.id = st.nextId := congrArg Block.id h; omega
      · have hbid0 := congrArg Block.id (hMmem b h)
        have hbid : b.id = S.id := hbid0
        omega
      · have := hbltn b (Or.inr h); omega
    · -- memNodup
      intro b hb
      rcases hmemN b hb with h | h | h | h
      · exact inv.coh.memNodup b (hOldMem b (Or.inl h))
      · rw [h]; simp
      · rw [hMmem b h]; exact hS2nodup
      · exact inv.coh.memNodup b (hOldMem b (Or.inr h))
    · -- memDisj
      intro b hb b' hb' x hxb hxb'
      have hxT : ∀ c : Block, c = (⟨st.nextId, [u], 0⟩ : Block) →
          x ∈ c.members → x = u := by
        intro c hc hx
        rw [hc] at hx
        simpa using hx
      have hxM : ∀ c ∈ M, x ∈ c.members → x ≠ u ∧ x ∈ S.members := by
        intro c hc hx
        rw [hMmem c hc] at hx
        exact hSnodup.mem_erase_iff.mp hx
      have hxOld : ∀ c : Block, c ∈ X ∨ c ∈ B → x ∈ c.members →
          x ≠ u ∧ x ∉ S.members := by
        intro c hc hx
        constructor
        · intro hxu
          exact huOnlyS c hc (hxu ▸ hx)
        · intro hxS
          exact hbneS c hc
            (congrArg Block.id (inv.coh.memDisj c (hOldMem c hc) S hSmem x hx hxS))
      rcases hmemN b hb with h1 | h1 | h1 | h1 <;>
        rcases hmemN b' hb' with h2 | h2 | h2 | h2
      · exact inv.coh.memDisj b (hOldMem b (Or.inl h1)) b'
          (hOldMem b' (Or.inl h2)) x hxb hxb'
      · exact absurd (hxT b' h2 hxb') (hxOld b (Or.inl h1) hxb).1
      · exact absurd (hxM b' h2 hxb').2 (hxOld b (Or.inl h1) hxb).2
      · exact inv.coh.memDisj b (hOldMem b (Or.inl h1)) b'
          (hOldMem b' (Or.inr h2)) x hxb hxb'
      · exact absurd (hxT b h1 hxb) (hxOld b' (Or.inl h2) hxb').1
      · rw [h1, h2]
      · exact absurd (hxT b h1 hxb) (hxM b' h2 hxb').1
      · exact absurd (hxT b h1 hxb) (hxOld b' (Or.inr h2) hxb').1
      · exact absurd (hxM b h1 hxb).2 (hxOld b' (Or.inl h2) hxb').2
      · exact absurd (hxT b' h2 hxb') (hxM b h1 hxb).1
      · rw [hMmem b h1, hMmem b' h2]
      · exact absurd (hxM b h1 hxb).2 (hxOld b' (Or.inr h2) hxb').2
      · exact inv.coh.memDisj b (hOldMem b (Or.inr h1)) b'
          (hOldMem b' (Or.inl h2)) x hxb hxb'
      · exact absurd (hxT b' h2 hxb') (hxOld b (Or.inr h1) hxb).1
      · exact absurd (hxM b' h2 hxb').2 (hxOld b (Or.inr h1) hxb).2
      · exact inv.coh.memDisj b (hOldMem b (Or.inr h1)) b'
          (hOldMem b' (Or.inr h2)) x hxb hxb'
    · -- getSetMem
      intro x sid2 hx
      dsimp only at hx
      by_cases hxu : x = u
      · rw [if_pos hxu] at hx
        refine ⟨⟨st.nextId, [u], 0⟩, hTmemN, ?_, by simp [hxu]⟩
        simpa using (Option.some.inj hx)
      · rw [if_neg hxu] at hx
        obtain ⟨b, hb, hbid, hxb⟩ := inv.coh.getSetMem x sid2 hx
        rw [hchain] at hb
        rcases List.mem_append.mp hb with h | h
        · exact ⟨b, hXmemN b h, hbid, hxb⟩
        · rcases List.mem_cons.mp h with h | h
          · rw [h] at hbid hxb
            have hxe : x ∈ S.members.erase u :=
              hSnodup.mem_erase_iff.mpr ⟨hxu, hxb⟩
            rcases hMspec with ⟨hemp, _⟩ | ⟨_, hM⟩
            · exact absurd hemp (List.ne_nil_of_mem hxe)
            · refine ⟨⟨S.id, S.members.erase u, i⟩,
                hMmemN _ (by rw [hM]; exact List.mem_singleton_self _), hbid, hxe⟩
          · exact ⟨b, hBmemN b h, hbid, hxb⟩
    · -- memGetSet
      intro b hb x hx
      dsimp only
      rcases hmemN b hb with h | h | h | h
      · have hxu : ¬x = u := fun hc => huOnlyS b (Or.inl h) (hc ▸ hx)
        rw [if_neg hxu]
        exact inv.coh.memGetSet b (hOldMem b (Or.inl h)) x hx
      · rw [h] at hx ⊢
        simp only [List.mem_singleton] at hx
        rw [if_pos hx]
      · rw [hMmem b h] at hx ⊢
        have := hSnodup.mem_erase_iff.mp hx
        rw [if_neg this.1]
        exact inv.coh.memGetSet S hSmem x this.2
      · have hxu : ¬x = u := fun hc => huOnlyS b (Or.inr h) (hc ▸ hx)
        rw [if_neg hxu]
        exact inv.coh.memGetSet b (hOldMem b (Or.inr h)) x hx
    · -- lb
      show n₀ ≤ st.nextId + 1
      omega
    · -- stampCases
      intro b hb
      rcases hmemN b hb with h | h | h | h
      · rcases inv.stampCases b (hOldMem b (Or.inl h)) with hlt | hstamped
        · exact Or.inl hlt
        · obtain ⟨hsi, hbn, t, hadj, htn, ⟨ec, hec, hecc, hecs, hect⟩, hcons⟩ := hstamped
          refine Or.inr ⟨hsi, hbn, t, ?_, htn,
            ⟨ec, List.mem_append_left _ hec, hecc, hecs, hect⟩, ?_⟩
          · simp only [adjOf, if_true] at hadj ⊢
            rw [hchain] at hadj
            exact adjStable_minus X B S (⟨st.nextId, [u], 0⟩ : Block) M b t
              (Or.inl h) (hXdisjB b) (by show ¬b.id = st.nextId; omega) (hbneS b (Or.inl h))
              hMid (by omega) hadj
          · intro e he hsrc
            rcases List.mem_append.mp he with he' | he'
            · exact hcons e he' hsrc
            · rw [List.mem_singleton.mp he'] at hsrc
              exact absurd hsrc.symm (hbneS b (Or.inl h))
      · exact Or.inl (by rw [h]; exact hi)
      · rw [hMmem b h]
        rcases hMspec with ⟨_, hM⟩ | ⟨_, hM⟩
        · rw [hM] at h; exact absurd h (List.not_mem_nil b)
        · refine Or.inr ⟨rfl, hsid_lt, st.nextId, ?_, hn0,
            ⟨⟨u, S.id, st.nextId, true⟩,
              List.mem_append_right _ (List.mem_singleton_self _), rfl, rfl, rfl⟩,
            ?_⟩
          · simp only [adjOf, if_true]
            rw [hM]
            rw [show X ++ ([(⟨S.id, S.members.erase u, i⟩ : Block)] ++
                (⟨st.nextId, [u], 0⟩ : Block) :: B)
              = X ++ (⟨S.id, S.members.erase u, i⟩ : Block) ::
                (⟨st.nextId, [u], 0⟩ : Block) :: B by simp]
            exact adjNew_minus X B (⟨S.id, S.members.erase u, i⟩ : Block)
              (⟨st.nextId, [u], 0⟩ : Block) hXid
          · intro e he hsrc
            rcases List.mem_append.mp he with he' | he'
            · exact absurd hsrc (hnosrc e he')
            · rw [List.mem_singleton.mp he']
      · rcases inv.stampCases b (hOldMem b (Or.inr h)) with hlt | hstamped
        · exact Or.inl hlt
        · obtain ⟨hsi, hbn, t, hadj, htn, ⟨ec, hec, hecc, hecs, hect⟩, hcons⟩ := hstamped
          refine Or.inr ⟨hsi, hbn, t, ?_, htn,
            ⟨ec, List.mem_append_left _ hec, hecc, hecs, hect⟩, ?_⟩
          · simp only [adjOf, if_true] at hadj ⊢
            rw [hchain] at hadj
            exact adjStable_minus X B S (⟨st.nextId, [u], 0⟩ : Block) M b t
              (Or.inr h) (hXdisjB b) (by show ¬b.id = st.nextId; omega) (hbneS b (Or.inr h))
              hMid (by omega) hadj
          · intro e he hsrc
            rcases List.mem_append.mp he with he' | he'
            · exact hcons e he' hsrc
            · rw [List.mem_singleton.mp he'] at hsrc
              exact absurd hsrc.symm (hbneS b (Or.inr h))
    · -- logRange
      intro e he
      rcases List.mem_append.mp he with he' | he'
      · obtain ⟨h1, h2, h3⟩ := inv.logRange e he'
        refine ⟨h1, h2, ?_⟩
        show e.tgt < st.nextId + 1
        omega
      · rw [List.mem_singleton.mp he']
        refine ⟨hsid_lt, hn0, ?_⟩
        show st.nextId < st.nextId + 1
        omega
    · -- logFun
      intro e he e' he' hsrc
      rcases List.mem_append.mp he with h1 | h1 <;>
        rcases List.mem_append.mp he' with h2 | h2
      · exact inv.logFun e h1 e' h2 hsrc
      · rw [List.mem_singleton.mp h2] at hsrc
        exact absurd hsrc (hnosrc e h1)
      · rw [List.mem_singleton.mp h1] at hsrc
        exact absurd hsrc.symm (hnosrc e' h2)
      · rw [List.mem_singleton.mp h1, List.mem_singleton.mp h2]
    · -- logCreate
      intro s
      rw [List.filter_append]
      by_cases hs : s = S.id
      · have h0 : log.filter (fun e => e.created && e.src == s) = [] := by
          refine List.filter_eq_nil_iff.mpr ?_
          intro e he
          simp only [Bool.and_eq_true, beq_iff_eq, not_and]
          intro _ hc
          exact hnosrc e he (hs ▸ hc)
        rw [h0, List.nil_append]
        simpa using List.length_filter_le _ [(⟨u, S.id, st.nextId, true⟩ : LogEntry)]
      · have h1 : ([(⟨u, S.id, st.nextId, true⟩ : LogEntry)].filter
            fun e => e.created && e.src == s) = [] := by
          refine List.filter_eq_nil_iff.mpr ?_
          intro e he
          rw [List.mem_singleton.mp he]
          simp only [Bool.and_eq_true, beq_iff_eq, not_and]
          intro _ hc
          exact hs hc.symm
        rw [h1, List.append_nil]
        exact inv.logCreate s
    · -- newBlocks
      intro b hb hn
      rcases hmemN b hb with h | h | h | h
      · exact ⟨(inv.newBlocks b (hOldMem b (Or.inl h)) hn).1,
          fun x hx => by
            obtain ⟨e, he, heu⟩ := (inv.newBlocks b (hOldMem b (Or.inl h)) hn).2 x hx
            exact ⟨e, List.mem_append_left _ he, heu⟩⟩
      · rw [h]
        refine ⟨rfl, ?_⟩
        intro x hx
        simp only [List.mem_singleton] at hx
        exact ⟨⟨u, S.id, st.nextId, true⟩,
          List.mem_append_right _ (List.mem_singleton_self _), hx.symm⟩
      · have hn2 : n₀ ≤ S.id := by
          rw [hMmem b h] at hn
          exact hn
        omega
      · exact ⟨(inv.newBlocks b (hOldMem b (Or.inr h)) hn).1,
          fun x hx => by
            obtain ⟨e, he, heu⟩ := (inv.newBlocks b (hOldMem b (Or.inr h)) hn).2 x hx
            exact ⟨e, List.mem_append_left _ he, heu⟩⟩
    · -- createStamp
      intro e he hec b hb hbid
      rcases List.mem_append.mp he with he' | he'
      · rcases hmemN b hb with h | h | h | h
        · exact inv.createStamp e he' hec b (hOldMem b (Or.inl h)) hbid
        · have hb2 : st.nextId = e.src := (congrArg Block.id h).symm.trans hbid
          obtain ⟨h1, _, _⟩ := inv.logRange e he'
          omega
        · have hb2 : S.id = e.src :=
            (congrArg Block.id (hMmem b h)).symm.trans hbid
          exact absurd hb2.symm (hnosrc e he')
        · exact inv.createStamp e he' hec b (hOldMem b (Or.inr h)) hbid
      · have hbid2 : b.id = S.id := by
          rw [List.mem_singleton.mp he'] at hbid
          exact hbid
        rcases hmemN b hb with h | h | h | h
        · exact absurd hbid2 (hbneS b (Or.inl h))
        · exact absurd ((congrArg Block.id h).symm.trans hbid2) htidne
        · show b.stamp = i
          rw [hMmem b h]
        · exact absurd hbid2 (hbneS b (Or.inr h))
    · -- nonCreate
      intro e he hec
      rcases List.mem_append.mp he with he' | he'
      · obtain ⟨e', he'', hc', hs'⟩ := inv.nonCreate e he' hec
        exact ⟨e', List.mem_append_left _ he'', hc', hs'⟩
      · rw [List.mem_singleton.mp he'] at hec
        simp at hec

/-- `adjOf` only inspects the identity sequence of the chain. -/
theorem adjOf_congr (minus : Bool) (X Y : List Block)
    (h : X.map Block.id = Y.map Block.id) (bid : Nat) :
    adjOf minus X bid = adjOf minus Y bid := by
  unfold adjOf
  cases minus with
  | false => simpa using prevIdOf_congr X Y h bid
  | true => simpa using nextIdOf_congr X Y h bid

/-- A found `d2`-neighbour identity belongs to the chain. -/
theorem adjOf_some_mem (minus : Bool) (chain : List Block) (bid t : Nat)
    (h : adjOf minus chain bid = some t) : t ∈ chain.map Block.id := by
  unfold adjOf at h
  cases minus with
  | false => exact prevIdOf_some_mem chain bid t (by simpa using h)
  | true => exact nextIdOf_some_mem chain bid t (by simpa using h)

/-- Stability of predecessor links under unlinking the emptied source
block, with member-only rewrites on the rest of the chain. -/
theorem adjStable_del_std (X B X' B' : List Block) (S : Block) (b : Block)
    (t : Nat)
    (hXids : X'.map Block.id = X.map Block.id)
    (hBids : B'.map Block.id = B.map Block.id)
    (hbX : b ∈ X ∨ b ∈ B)
    (hXdisj : b ∈ B → b.id ∉ X.map Block.id)
    (hbnS : ¬b.id = S.id)
    (ht : ¬t = S.id)
    (hold : prevIdOf (X ++ S :: B) b.id = some t) :
    prevIdOf (X' ++ B') b.id = some t := by
  rcases hbX with hb | hb
  · have hmem : b.id ∈ X.map Block.id := List.mem_map_of_mem Block.id hb
    rw [prevIdOf_append_front X (S :: B) b.id hmem] at hold
    rw [prevIdOf_append_front X' B' b.id (by rw [hXids]; exact hmem)]
    rw [prevIdOf_congr X' X hXids]
    exact hold
  · have hnX : b.id ∉ X.map Block.id := hXdisj hb
    cases B with
    | nil => exact absurd hb (List.not_mem_nil b)
    | cons y B2 =>
      rw [show X ++ S :: y :: B2 = (X ++ [S]) ++ y :: B2 by simp] at hold
      rw [prevIdOf_append_suffix (X ++ [S]) y B2 b.id (by simp) (by
        intro hc
        rcases (by simpa using hc : b.id ∈ X.map Block.id ∨ b.id = S.id) with h | h
        · exact hnX h
        · exact hbnS h)] at hold
      by_cases hy : y.id = b.id
      · rw [if_pos hy, List.getLastD_concat] at hold
        exact absurd (Option.some.inj hold).symm ht
      · rw [if_neg hy] at hold
        cases B' with
        | nil => simp at hBids
        | cons y' B2' =>
          have hBids' : y'.id = y.id ∧ B2'.map Block.id = B2.map Block.id := by
            simpa using hBids
          cases X' with
          | nil =>
            simp only [List.nil_append, prevIdOf]
            rw [if_neg (by rw [hBids'.1]; exact hy)]
            rw [prevIdGo_congr B2' B2 y' y hBids'.1 hBids'.2 b.id]
            exact hold
          | cons x0 X2 =>
            rw [prevIdOf_append_suffix (x0 :: X2) y' B2' b.id (by simp) (by
              intro hc
              rw [hXids] at hc
              exact hnX hc)]
            rw [if_neg (by rw [hBids'.1]; exact hy)]
            rw [prevIdGo_congr B2' B2 y' y hBids'.1 hBids'.2 b.id]
            exact hold

/-- Stability of successor links under unlinking the emptied source
block, with member-only rewrites on the rest of the chain. -/
theorem adjStable_del_minus (X B X' B' : List Block) (S : Block) (b : Block)
    (t : Nat)
    (hXids : X'.map Block.id = X.map Block.id)
    (hBids : B'.map Block.id = B.map Block.id)
    (hbX : b ∈ X ∨ b ∈ B)
    (hXdisj : b ∈ B → b.id ∉ X.map Block.id)
    (hbnS : ¬b.id = S.id)
    (ht : ¬t = S.id)
    (hold : nextIdOf (X ++ S :: B) b.id = some t) :
    nextIdOf (X' ++ B') b.id = some t := by
  rcases hbX with hb | hb
  · have hmem : b.id ∈ X.map Block.id := List.mem_map_of_mem Block.id hb
    rcases nextIdOf_append_front X (S :: B) b.id hmem with ⟨t', h1, h2⟩ | ⟨h1, h2⟩
    · rw [h2] at hold
      have ht' : t' = t := Option.some.inj hold
      rcases nextIdOf_append_front X' B' b.id (by rw [hXids]; exact hmem) with
        ⟨t'', h1', h2'⟩ | ⟨h1', h2'⟩
      · rw [nextIdOf_congr X' X hXids, h1] at h1'
        rw [h2', ← Option.some.inj h1', ht']
      · rw [nextIdOf_congr X' X hXids, h1] at h1'
        simp at h1'
    · rw [h2] at hold
      simp only [List.head?_cons, Option.map_some] at hold
      exact absurd (Option.some.inj hold).symm ht
  · have hnX : b.id ∉ X.map Block.id := hXdisj hb
    rw [show X ++ S :: B = (X ++ [S]) ++ B by simp] at hold
    rw [nextIdOf_append_not_mem (X ++ [S]) B b.id (by
      intro hc
      rcases (by simpa using hc : b.id ∈ X.map Block.id ∨ b.id = S.id) with h | h
      · exact hnX h
      · exact hbnS h)] at hold
    rw [nextIdOf_append_not_mem X' B' b.id (by rw [hXids]; exact hnX)]
    rw [nextIdOf_congr B' B hBids]
    exact hold

/-- Identity of a block after the conditional append-`u` rewrite. -/
theorem updApp_id (b0 : Block) (u : V) (tid : Nat) :
    (if b0.id = tid then { b0 with members := b0.members ++ [u] } else b0).id
      = b0.id := by
  by_cases h : b0.id = tid <;> simp [h]

/-- Stamp of a block after the conditional append-`u` rewrite. -/
theorem updApp_stamp (b0 : Block) (u : V) (tid : Nat) :
    (if b0.id = tid then { b0 with members := b0.members ++ [u] } else b0).stamp
      = b0.stamp := by
  by_cases h : b0.id = tid <;> simp [h]

/-- Membership in a block after the conditional append-`u` rewrite. -/
theorem updApp_mem (b0 : Block) (u x : V) (tid : Nat) :
    (x ∈ (if b0.id = tid then { b0 with members := b0.members ++ [u] }
          else b0).members) ↔
      (x ∈ b0.members ∨ (b0.id = tid ∧ x = u)) := by
  by_cases h : b0.id = tid <;> simp [h]

/-- Removing a vertex from a decomposed chain: the source block keeps its
place (with the vertex erased) unless it empties, in which case it is
unlinked. -/
theorem removeFromBlock_decomp (X B : List Block) (S : Block) (u : V)
    (hX : S.id ∉ X.map Block.id) (hB : S.id ∉ B.map Block.id) :
    removeFromBlock (X ++ S :: B) S.id u =
      X ++ ((if S.members.erase u = [] then []
             else [(⟨S.id, S.members.erase u, S.stamp⟩ : Block)]) ++ B) := by
  unfold removeFromBlock
  rw [show X ++ S :: B = X ++ [S] ++ B by simp]
  rw [updateBlock_append, updateBlock_append]
  rw [updateBlock_eq_of_not_mem _ _ X hX]
  rw [updateBlock_eq_of_not_mem _ _ B hB]
  rw [show updateBlock [S] S.id (fun b => { b with members := b.members.erase u })
      = [(⟨S.id, S.members.erase u, S.stamp⟩ : Block)] by simp [updateBlock]]
  rw [dropEmpty_append, dropEmpty_append]
  rw [dropEmpty_eq_of_not_mem _ X hX]
  rw [dropEmpty_eq_of_not_mem _ B hB]
  rw [dropEmpty_single (⟨S.id, S.members.erase u, S.stamp⟩ : Block) S.id rfl]
  simp

/-- Mode-generic deletion stability for the `d2` pointer. -/
theorem adjStable_del (minus : Bool) (X B X' B' : List Block) (S : Block)
    (b : Block) (t : Nat)
    (hXids : X'.map Block.id = X.map Block.id)
    (hBids : B'.map Block.id = B.map Block.id)
    (hbX : b ∈ X ∨ b ∈ B)
    (hXdisj : b ∈ B → b.id ∉ X.map Block.id)
    (hbnS : ¬b.id = S.id)
    (ht : ¬t = S.id)
    (hold : adjOf minus (X ++ S :: B) b.id = some t) :
    adjOf minus (X' ++ B') b.id = some t := by
  unfold adjOf at hold ⊢
  cases minus with
  | false =>
    simp only [Bool.false_eq_true, if_false] at hold ⊢
    exact adjStable_del_std X B X' B' S b t hXids hBids hbX hXdisj hbnS ht hold
  | true =>
    simp only [if_true] at hold ⊢
    exact adjStable_del_minus X B X' B' S b t hXids hBids hbX hXdisj hbnS ht hold

/-- Walking one neighbour through the reuse path (source block already
split this round) preserves the round invariant and logs a non-creation
entry whose target is the block created earlier for the same source. -/
theorem reusePreserves (minus : Bool) (i n₀ : Nat) (_hi : 0 < i) (st : St)
    (log : List LogEntry) (u : V) (sid : Nat) (S : Block) (tid : Nat)
    (inv : RoundInv minus i n₀ st log)
    (hu_new : ∀ e ∈ log, e.u ≠ u)
    (hget : st.getSet u = some sid)
    (hgb : getBlock st.chain sid = some S)
    (hstampS : ¬S.stamp < i)
    (hadj : adjOf minus st.chain sid = some tid) :
    RoundInv minus i n₀
      { st with
        chain := removeFromBlock
          (updateBlock st.chain tid fun b => { b with members := b.members ++ [u] })
          sid u,
        getSet := fun x => if x = u then some tid else st.getSet x }
      (log ++ [⟨u, sid, tid, false⟩]) := by
  obtain ⟨hSmem, hSid⟩ := getBlock_some st.chain sid S hgb
  subst hSid
  obtain ⟨X, B, hchain, hXid, hBid⟩ := chain_decomp st.chain S hSmem inv.coh.idsNodup
  have hu_mem : u ∈ S.members := by
    obtain ⟨b, hb, hbid, hub⟩ := inv.coh.getSetMem u S.id hget
    exact eq_of_mem_of_id_eq st.chain inv.coh.idsNodup b S hb hSmem hbid ▸ hub
  have hsid_lt : S.id < n₀ := by
    by_contra hcon
    push_neg at hcon
    obtain ⟨_, hlogd⟩ := inv.newBlocks S hSmem hcon
    obtain ⟨e, he, heu⟩ := hlogd u hu_mem
    exact hu_new e he heu
  have hn0 : n₀ ≤ st.nextId := inv.lb
  rcases inv.stampCases S hSmem with hlt | hSdata
  · exact absurd hlt hstampS
  obtain ⟨hsi, _, t, hadjS, htn, ⟨ec, hecmem, hecc, hecs, hect⟩, hconsS⟩ := hSdata
  have htt : t = tid := by
    rw [hadjS] at hadj
    exact Option.some.inj hadj
  have htid_n0 : n₀ ≤ tid := htt ▸ htn
  have hect' : ec.tgt = tid := htt ▸ hect
  have hconsS' : ∀ e ∈ log, e.src = S.id → e.tgt = tid := fun e he hs =>
    htt ▸ hconsS e he hs
  have htid_mem : tid ∈ st.chain.map Block.id :=
    adjOf_some_mem minus st.chain S.id tid hadj
  obtain ⟨W, hWmem, hWid⟩ := List.mem_map.mp htid_mem
  have hWnew := inv.newBlocks W hWmem (by omega)
  have hu_notW : u ∉ W.members := by
    intro hc
    obtain ⟨e, he, heu⟩ := hWnew.2 u hc
    exact hu_new e he heu
  have hWneS : ¬W.id = S.id := by omega
  have hSneTid : ¬S.id = tid := by omega
  have htid_lt : tid < st.nextId := by
    have := inv.coh.idsLt W hWmem
    omega
  have hndAll : ((X ++ S :: B).map Block.id).Nodup := hchain ▸ inv.coh.idsNodup
  have hXB_facts : (X.map Block.id).Nodup ∧ (B.map Block.id).Nodup ∧
      ∀ a ∈ X.map Block.id, a ∉ B.map Block.id := by
    rw [List.map_append, List.map_cons] at hndAll
    obtain ⟨h1, h2, h3⟩ := List.nodup_append.mp hndAll
    exact ⟨h1, (List.nodup_cons.mp h2).2,
      fun a ha hab => h3 ha (List.mem_cons_of_mem _ hab)⟩
  have hOldMem : ∀ b : Block, b ∈ X ∨ b ∈ B → b ∈ st.chain := by
    intro b hb
    rw [hchain]
    rcases hb with hb | hb
    · exact List.mem_append_left _ hb
    · exact List.mem_append_right _ (List.mem_cons_of_mem _ hb)
  have hbneS : ∀ b : Block, b ∈ X ∨ b ∈ B → ¬b.id = S.id := by
    intro b hb hc
    rcases hb with hb | hb
    · exact hXid (hc ▸ List.mem_map_of_mem Block.id hb)
    · exact hBid (hc ▸ List.mem_map_of_mem Block.id hb)
  have hbltn : ∀ b : Block, b ∈ X ∨ b ∈ B → b.id < st.nextId :=
    fun b hb => inv.coh.idsLt b (hOldMem b hb)
  have huOnlyS : ∀ b : Block, b ∈ X ∨ b ∈ B → u ∉ b.members := by
    intro b hb hub
    exact hbneS b hb
      (congrArg Block.id (inv.coh.memDisj b (hOldMem b hb) S hSmem u hub hu_mem))
  have hXdisjB : ∀ b : Block, b ∈ B → b.id ∉ X.map Block.id := by
    intro b hb hc
    exact hXB_facts.2.2 _ hc (List.mem_map_of_mem Block.id hb)
  have hSnodup : S.members.Nodup := inv.coh.memNodup S hSmem
  have hS2nodup : (S.members.erase u).Nodup := hSnodup.erase u
  have hWXB : W ∈ X ∨ W ∈ B := by
    have hW2 := hWmem
    rw [hchain] at hW2
    rcases List.mem_append.mp hW2 with h | h
    · exact Or.inl h
    · rcases List.mem_cons.mp h with h | h
      · exact absurd (congrArg Block.id h) hWneS
      · exact Or.inr h
  obtain ⟨X', hX'⟩ : ∃ X',
      updateBlock X tid (fun b => { b with members := b.members ++ [u] }) = X' :=
    ⟨_, rfl⟩
  obtain ⟨B', hB'⟩ : ∃ B',
      updateBlock B tid (fun b => { b with members := b.members ++ [u] }) = B' :=
    ⟨_, rfl⟩
  have hXids' : X'.map Block.id = X.map Block.id := by
    rw [← hX']
    exact updateBlock_map_id X tid _ (fun b => rfl)
  have hBids' : B'.map Block.id = B.map Block.id := by
    rw [← hB']
    exact updateBlock_map_id B tid _ (fun b => rfl)
  have hchain1 : updateBlock st.chain tid
      (fun b => { b with members := b.members ++ [u] }) = X' ++ S :: B' := by
    rw [hchain, updateBlock_append, updateBlock_cons, if_neg hSneTid, hX', hB']
  obtain ⟨M, hMdef⟩ : ∃ M, (if S.members.erase u = [] then ([] : List Block)
      else [(⟨S.id, S.members.erase u, S.stamp⟩ : Block)]) = M := ⟨_, rfl⟩
  have hMspec : (S.members.erase u = [] ∧ M = []) ∨
      (S.members.erase u ≠ [] ∧
        M = [(⟨S.id, S.members.erase u, S.stamp⟩ : Block)]) := by
    by_cases hc : S.members.erase u = []
    · exact Or.inl ⟨hc, by rw [← hMdef, if_pos hc]⟩
    · exact Or.inr ⟨hc, by rw [← hMdef, if_neg hc]⟩
  have hMmem : ∀ b ∈ M, b = (⟨S.id, S.members.erase u, S.stamp⟩ : Block) := by
    intro b hb
    rcases hMspec with ⟨_, hM⟩ | ⟨_, hM⟩
    · rw [hM] at hb; exact absurd hb (List.not_mem_nil b)
    · rw [hM] at hb; simpa using hb
  have hchainN : removeFromBlock
      (updateBlock st.chain tid fun b => { b with members := b.members ++ [u] })
      S.id u = X' ++ (M ++ B') := by
    rw [hchain1, removeFromBlock_decomp X' B' S u
      (by rw [hXids']; exact hXid) (by rw [hBids']; exact hBid), hMdef]
  rw [hchainN]
  have hprovX : ∀ b' ∈ X', ∃ b0 ∈ X,
      b' = if b0.id = tid then { b0 with members := b0.members ++ [u] } else b0 := by
    intro b' hb'
    rw [← hX'] at hb'
    exact (mem_updateBlock X tid _ b').mp hb'
  have hprovB : ∀ b' ∈ B', ∃ b0 ∈ B,
      b' = if b0.id = tid then { b0 with members := b0.members ++ [u] } else b0 := by
    intro b' hb'
    rw [← hB'] at hb'
    exact (mem_updateBlock B tid _ b').mp hb'
  have hprov : ∀ b' : Block, b' ∈ X' ∨ b' ∈ B' → ∃ b0,
      (b0 ∈ X ∨ b0 ∈ B) ∧
      b' = if b0.id = tid then { b0 with members := b0.members ++ [u] } else b0 := by
    intro b' hb'
    rcases hb' with hb' | hb'
    · obtain ⟨b0, hb0, he⟩ := hprovX b' hb'
      exact ⟨b0, Or.inl hb0, he⟩
    · obtain ⟨b0, hb0, he⟩ := hprovB b' hb'
      exact ⟨b0, Or.inr hb0, he⟩
  have hintoX : ∀ b0 ∈ X,
      (if b0.id = tid then { b0 with members := b0.members ++ [u] } else b0) ∈ X' := by
    intro b0 hb0
    rw [← hX']
    exact (mem_updateBlock X tid _ _).mpr ⟨b0, hb0, rfl⟩
  have hintoB : ∀ b0 ∈ B,
      (if b0.id = tid then { b0 with members := b0.members ++ [u] } else b0) ∈ B' := by
    intro b0 hb0
    rw [← hB']
    exact (mem_updateBlock B tid _ _).mpr ⟨b0, hb0, rfl⟩
  have hmemN : ∀ b : Block, b ∈ X' ++ (M ++ B') →
      (b ∈ X' ∨ b ∈ B') ∨ b ∈ M := by
    intro b hb
    rcases List.mem_append.mp hb with h | h
    · exact Or.inl (Or.inl h)
    · rcases List.mem_append.mp h with h | h
      · exact Or.inr h
      · exact Or.inl (Or.inr h)
  have hXmemN : ∀ b ∈ X', b ∈ X' ++ (M ++ B') := fun b hb =>
    List.mem_append_left _ hb
  have hBmemN : ∀ b ∈ B', b ∈ X' ++ (M ++ B') := fun b hb =>
    List.mem_append_right _ (List.mem_append_right _ hb)
  have hMmemN : ∀ b ∈ M, b ∈ X' ++ (M ++ B') := fun b hb =>
    List.mem_append_right _ (List.mem_append_left _ hb)
  have hidsEqKeep : M = [(⟨S.id, S.members.erase u, S.stamp⟩ : Block)] →
      (X' ++ (M ++ B')).map Block.id = st.chain.map Block.id := by
    intro hM
    rw [hchain, hM]
    simp [hXids', hBids']
  refine ⟨⟨?_, ?_, ?_, ?_, ?_, ?_⟩, ?_, ?_, ?_, ?_, ?_, ?_, ?_, ?_⟩
  · -- idsNodup
    rcases hMspec with ⟨_, hM⟩ | ⟨_, hM⟩
    · rw [hM]
      simp only [List.nil_append, List.map_append, hXids', hBids']
      have hsub : (X.map Block.id ++ B.map Block.id).Sublist
          (X.map Block.id ++ S.id :: B.map Block.id) :=
        List.Sublist.append_left (List.sublist_cons_self _ _) _
      refine hsub.nodup ?_
      rw [List.map_append, List.map_cons] at hndAll
      exact hndAll
    · rw [hidsEqKeep hM]
      exact inv.coh.idsNodup
  · -- idsLt
    intro b hb
    show b.id < st.nextId
    rcases hmemN b hb with h | h
    · obtain ⟨b0, hb0, he⟩ := hprov b h
      have : b.id = b0.id := by rw [he]; exact updApp_id b0 u tid
      have := hbltn b0 hb0
      omega
    · have hbid0 := congrArg Block.id (hMmem b h)
      have hbid : b.id = S.id := hbid0
      omega
  · -- memNodup
    intro b hb
    rcases hmemN b hb with h | h
    · obtain ⟨b0, hb0, he⟩ := hprov b h
      by_cases hb0t : b0.id = tid
      · have hb0W : b0 = W :=
          eq_of_mem_of_id_eq st.chain inv.coh.idsNodup b0 W (hOldMem b0 hb0) hWmem
            (by omega)
        rw [he, if_pos hb0t]
        refine List.nodup_append.mpr ⟨?_, by simp, ?_⟩
        · exact inv.coh.memNodup b0 (hOldMem b0 hb0)
        · intro a ha hc
          rw [List.mem_singleton.mp hc] at ha
          rw [hb0W] at ha
          exact hu_notW ha
      · rw [he, if_neg hb0t]
        exact inv.coh.memNodup b0 (hOldMem b0 hb0)
    · rw [hMmem b h]
      exact hS2nodup
  · -- memDisj
    intro b hb b' hb' x hxb hxb'
    have hface : ∀ c : Block, c ∈ M → x ∈ c.members → x ≠ u ∧ x ∈ S.members := by
      intro c hc hx
      rw [hMmem c hc] at hx
      exact hSnodup.mem_erase_iff.mp hx
    rcases hmemN b hb with h1 | h1 <;> rcases hmemN b' hb' with h2 | h2
    · obtain ⟨b0, hb0, he0⟩ := hprov b h1
      obtain ⟨b1, hb1, he1⟩ := hprov b' h2
      rw [he0] at hxb
      rw [he1] at hxb'
      rcases (updApp_mem b0 u x tid).mp hxb with hx0 | ⟨ht0, hx0⟩ <;>
        rcases (updApp_mem b1 u x tid).mp hxb' with hx1 | ⟨ht1, hx1⟩
      · rw [he0, he1,
          inv.coh.memDisj b0 (hOldMem b0 hb0) b1 (hOldMem b1 hb1) x hx0 hx1]
      · exact absurd (hx1 ▸ hx0) (huOnlyS b0 hb0)
      · exact absurd (hx0 ▸ hx1) (huOnlyS b1 hb1)
      · have : b0 = b1 :=
          eq_of_mem_of_id_eq st.chain inv.coh.idsNodup b0 b1 (hOldMem b0 hb0)
            (hOldMem b1 hb1) (by omega)
        rw [he0, he1, this]
    · obtain ⟨b0, hb0, he0⟩ := hprov b h1
      rw [he0] at hxb
      obtain ⟨hxu, hxS⟩ := hface b' h2 hxb'
      rcases (updApp_mem b0 u x tid).mp hxb with hx0 | ⟨ht0, hx0⟩
      · exact absurd
          (congrArg Block.id
            (inv.coh.memDisj b0 (hOldMem b0 hb0) S hSmem x hx0 hxS))
          (hbneS b0 hb0)
      · exact absurd hx0 hxu
    · obtain ⟨b1, hb1, he1⟩ := hprov b' h2
      rw [he1] at hxb'
      obtain ⟨hxu, hxS⟩ := hface b h1 hxb
      rcases (updApp_mem b1 u x tid).mp hxb' with hx1 | ⟨ht1, hx1⟩
      · exact absurd
          (congrArg Block.id
            (inv.coh.memDisj b1 (hOldMem b1 hb1) S hSmem x hx1 hxS))
          (hbneS b1 hb1)
      · exact absurd hx1 hxu
    · rw [hMmem b h1, hMmem b' h2]
  · -- getSetMem
    intro x sid2 hx
    dsimp only at hx
    by_cases hxu : x = u
    · rw [if_pos hxu] at hx
      have hsid2 : sid2 = tid := by simpa using (Option.some.inj hx).symm
      rcases hWXB with hW | hW
      · refine ⟨{ W with members := W.members ++ [u] }, ?_, by simpa using hWid ▸ hsid2.symm, by simp [hxu]⟩
        have := hintoX W hW
        rw [if_pos hWid] at this
        exact hXmemN _ this
      · refine ⟨{ W with members := W.members ++ [u] }, ?_, by simpa using hWid ▸ hsid2.symm, by simp [hxu]⟩
        have := hintoB W hW
        rw [if_pos hWid] at this
        exact hBmemN _ this
    · rw [if_neg hxu] at hx
      obtain ⟨b, hb, hbid, hxb⟩ := inv.coh.getSetMem x sid2 hx
      rw [hchain] at hb
      rcases List.mem_append.mp hb with h | h
      · refine ⟨if b.id = tid then { b with members := b.members ++ [u] } else b,
          hXmemN _ (hintoX b h), by rw [updApp_id, hbid], ?_⟩
        exact (updApp_mem b u x tid).mpr (Or.inl hxb)
      · rcases List.mem_cons.mp h with h | h
        · rw [h] at hbid hxb
          have hxe : x ∈ S.members.erase u :=
            hSnodup.mem_erase_iff.mpr ⟨hxu, hxb⟩
          rcases hMspec with ⟨hemp, _⟩ | ⟨_, hM⟩
          · exact absurd hemp (List.ne_nil_of_mem hxe)
          · refine ⟨⟨S.id, S.members.erase u, S.stamp⟩,
              hMmemN _ (by rw [hM]; exact List.mem_singleton_self _), hbid, hxe⟩
        · refine ⟨if b.id = tid then { b with members := b.members ++ [u] } else b,
            hBmemN _ (hintoB b h), by rw [updApp_id, hbid], ?_⟩
          exact (updApp_mem b u x tid).mpr (Or.inl hxb)
  · -- memGetSet
    intro b hb x hx
    dsimp only
    rcases hmemN b hb with h | h
    · obtain ⟨b0, hb0, he⟩ := hprov b h
      rw [he] at hx
      rcases (updApp_mem b0 u x tid).mp hx with hx0 | ⟨ht0, hx0⟩
      · have hxu : ¬x = u := fun hc => huOnlyS b0 hb0 (hc ▸ hx0)
        rw [if_neg hxu, he, updApp_id]
        exact inv.coh.memGetSet b0 (hOldMem b0 hb0) x hx0
      · rw [if_pos hx0, he, updApp_id, ht0]
    · rw [hMmem b h] at hx ⊢
      have := hSnodup.mem_erase_iff.mp hx
      rw [if_neg this.1]
      exact inv.coh.memGetSet S hSmem x this.2
  · -- lb
    show n₀ ≤ st.nextId
    omega
  · -- stampCases
    intro b hb
    rcases hmemN b hb with h | h
    · obtain ⟨b0, hb0, he⟩ := hprov b h
      have hid : b.id = b0.id := by rw [he]; exact updApp_id b0 u tid
      have hst : b.stamp = b0.stamp := by rw [he]; exact updApp_stamp b0 u tid
      rw [hid, hst]
      rcases inv.stampCases b0 (hOldMem b0 hb0) with hlt | hstamped
      · exact Or.inl hlt
      · obtain ⟨hsi0, hbn0, t0, hadj0, htn0, ⟨ec0, hec0, hecc0, hecs0, hect0⟩,
          hcons0⟩ := hstamped
        refine Or.inr ⟨hsi0, hbn0, t0, ?_, htn0,
          ⟨ec0, List.mem_append_left _ hec0, hecc0, hecs0, hect0⟩, ?_⟩
        · rcases hMspec with ⟨_, hM⟩ | ⟨_, hM⟩
          · rw [hchain] at hadj0
            have hXd : b0 ∈ B → b0.id ∉ X.map Block.id := hXdisjB b0
            rw [hM, List.nil_append]
            exact adjStable_del minus X B X' B' S b0 t0 hXids' hBids' hb0 hXd
              (hbneS b0 hb0) (by omega) hadj0
          · rw [adjOf_congr minus (X' ++ (M ++ B')) st.chain (hidsEqKeep hM)]
            exact hadj0
        · intro e he hsrc
          rcases List.mem_append.mp he with he' | he'
          · exact hcons0 e he' hsrc
          · rw [List.mem_singleton.mp he'] at hsrc
            exact absurd hsrc.symm (hbneS b0 hb0)
    · rw [hMmem b h]
      rcases hMspec with ⟨_, hM⟩ | ⟨_, hM⟩
      · rw [hM] at h
        exact absurd h (List.not_mem_nil b)
      · refine Or.inr ⟨hsi, hsid_lt, tid, ?_, htid_n0,
          ⟨ec, List.mem_append_left _ hecmem, hecc, hecs, hect'⟩, ?_⟩
        · show adjOf minus (X' ++ (M ++ B')) S.id = some tid
          rw [adjOf_congr minus (X' ++ (M ++ B')) st.chain (hidsEqKeep hM)]
          exact hadj
        · intro e he hsrc
          rcases List.mem_append.mp he with he' | he'
          · exact hconsS' e he' hsrc
          · rw [List.mem_singleton.mp he']
  · -- logRange
    intro e he
    rcases List.mem_append.mp he with he' | he'
    · obtain ⟨h1, h2, h3⟩ := inv.logRange e he'
      refine ⟨h1, h2, ?_⟩
      show e.tgt < st.nextId
      omega
    · rw [List.mem_singleton.mp he']
      refine ⟨hsid_lt, htid_n0, ?_⟩
      show tid < st.nextId
      omega
  · -- logFun
    intro e he e' he' hsrc
    rcases List.mem_append.mp he with h1 | h1 <;>
      rcases List.mem_append.mp he' with h2 | h2
    · exact inv.logFun e h1 e' h2 hsrc
    · rw [List.mem_singleton.mp h2] at hsrc ⊢
      show e.tgt = tid
      exact hconsS' e h1 hsrc
    · rw [List.mem_singleton.mp h1] at hsrc ⊢
      show tid = e'.tgt
      exact (hconsS' e' h2 hsrc.symm).symm
    · rw [List.mem_singleton.mp h1, List.mem_singleton.mp h2]
  · -- logCreate
    intro s
    rw [List.filter_append]
    have h1 : ([(⟨u, S.id, tid, false⟩ : LogEntry)].filter
        fun e => e.created && e.src == s) = [] := by
      refine List.filter_eq_nil_iff.mpr ?_
      intro e he
      rw [List.mem_singleton.mp he]
      simp
    rw [h1, List.append_nil]
    exact inv.logCreate s
  · -- newBlocks
    intro b hb hn
    rcases hmemN b hb with h | h
    · obtain ⟨b0, hb0, he⟩ := hprov b h
      have hid : b.id = b0.id := by rw [he]; exact updApp_id b0 u tid
      have hst : b.stamp = b0.stamp := by rw [he]; exact updApp_stamp b0 u tid
      rw [hid] at hn
      obtain ⟨hst0, hmem0⟩ := inv.newBlocks b0 (hOldMem b0 hb0) hn
      refine ⟨by rw [hst, hst0], ?_⟩
      intro x hx
      rw [he] at hx
      rcases (updApp_mem b0 u x tid).mp hx with hx0 | ⟨_, hx0⟩
      · obtain ⟨e, hemem, heu⟩ := hmem0 x hx0
        exact ⟨e, List.mem_append_left _ hemem, heu⟩
      · exact ⟨⟨u, S.id, tid, false⟩,
          List.mem_append_right _ (List.mem_singleton_self _), hx0.symm⟩
    · have hbid0 := congrArg Block.id (hMmem b h)
      have hbid : b.id = S.id := hbid0
      rw [hbid] at hn
      omega
  · -- createStamp
    intro e he hec b hb hbid
    rcases List.mem_append.mp he with he' | he'
    · rcases hmemN b hb with h | h
      · obtain ⟨b0, hb0, hep⟩ := hprov b h
        have hid : b.id = b0.id := by rw [hep]; exact updApp_id b0 u tid
        have hst : b.stamp = b0.stamp := by rw [hep]; exact updApp_stamp b0 u tid
        rw [hst]
        exact inv.createStamp e he' hec b0 (hOldMem b0 hb0) (by rw [← hid, hbid])
      · have hb20 := congrArg Block.id (hMmem b h)
        have hb2 : b.id = S.id := hb20
        have hstS0 := congrArg Block.stamp (hMmem b h)
        have hstS : b.stamp = S.stamp := hstS0
        rw [hstS]
        exact inv.createStamp e he' hec S hSmem (by rw [← hb2, hbid])
    · rw [List.mem_singleton.mp he'] at hec
      simp at hec
  · -- nonCreate
    intro e he hec
    rcases List.mem_append.mp he with he' | he'
    · obtain ⟨e', he'', hc', hs'⟩ := inv.nonCreate e he' hec
      exact ⟨e', List.mem_append_left _ he'', hc', hs'⟩
    · rw [List.mem_singleton.mp he']
      exact ⟨ec, List.mem_append_left _ hecmem, hecc, hecs⟩

/-- Any successful neighbour step preserves the round invariant, and all
entries it logs concern the processed neighbour. -/
theorem stepPreserves (minus : Bool) (i n₀ : Nat) (hi : 0 < i) (st : St)
    (log : List LogEntry) (u : V)
    (inv : RoundInv minus i n₀ st log)
    (hu_new : ∀ e ∈ log, e.u ≠ u) :
    ∀ (st' : St) (ent : Option LogEntry),
      stepNeighbor minus i st (some u) = .ok (st', ent) →
      RoundInv minus i n₀ st' (log ++ ent.toList) ∧ ∀ e ∈ ent.toList, e.u = u := by
  intro st' ent h
  cases hget : st.getSet u with
  | none =>
    rw [stepNeighbor_skip_eq minus i st u hget] at h
    simp only [Except.ok.injEq, Prod.mk.injEq] at h
    obtain ⟨h1, h2⟩ := h
    subst h1
    subst h2
    refine ⟨by simpa using inv, by simp⟩
  | some sid =>
    cases hgb : getBlock st.chain sid with
    | none => simp only [stepNeighbor, hget, hgb, reduceCtorEq] at h
    | some S =>
      by_cases hst : S.stamp < i
      · rw [stepNeighbor_create_eq minus i st u sid S hget hgb hst] at h
        simp only [Except.ok.injEq, Prod.mk.injEq] at h
        obtain ⟨h1, h2⟩ := h
        subst h1
        subst h2
        refine ⟨?_, by simp⟩
        simpa using createPreserves minus i n₀ hi st log u sid S inv hu_new
          hget hgb hst
      · cases hadj : adjOf minus st.chain sid with
        | none => simp only [stepNeighbor, hget, hgb, if_neg hst, hadj,
            reduceCtorEq] at h
        | some tid =>
          rw [stepNeighbor_reuse_eq minus i st u sid S tid hget hgb hst hadj] at h
          simp only [Except.ok.injEq, Prod.mk.injEq] at h
          obtain ⟨h1, h2⟩ := h
          subst h1
          subst h2
          refine ⟨?_, by simp⟩
          simpa using reusePreserves minus i n₀ hi st log u sid S tid inv hu_new
            hget hgb hst hadj

/-- Walking a duplicate-free neighbour list preserves the round
invariant, with the ghost log of all moves accumulated. -/
theorem foldNeighbors_inv (minus : Bool) (i n₀ : Nat) (hi : 0 < i) :
    ∀ (L : List (Option V)) (st : St) (log : List LogEntry),
      RoundInv minus i n₀ st log →
      (∀ x : V, some x ∈ L → ∀ e ∈ log, e.u ≠ x) →
      L.Nodup →
      RoundInv minus i n₀ (foldNeighbors minus i st L).st
        (log ++ (foldNeighbors minus i st L).log) := by
  intro L
  induction L with
  | nil => intro st log inv _ _; simpa [foldNeighbors] using inv
  | cons uo rest ih =>
    intro st log inv hfresh hnd
    simp only [foldNeighbors]
    cases h : stepNeighbor minus i st uo with
    | error e => simpa using inv
    | ok p =>
      obtain ⟨st', ent⟩ := p
      cases uo with
      | none => simp [stepNeighbor] at h
      | some u =>
        obtain ⟨inv', hentu⟩ := stepPreserves minus i n₀ hi st log u inv
          (fun e he => hfresh u (List.mem_cons_self _ _) e he) st' ent h
        have hfresh' : ∀ x : V, some x ∈ rest → ∀ e ∈ log ++ ent.toList,
            e.u ≠ x := by
          intro x hx e he hc
          rcases List.mem_append.mp he with he' | he'
          · exact hfresh x (List.mem_cons_of_mem _ hx) e he' hc
          · have heu : e.u = u := hentu e he'
            have hxu : x = u := by rw [← hc, heu]
            rw [hxu] at hx
            exact (List.nodup_cons.mp hnd).1 hx
        have hrec := ih st' (log ++ ent.toList) inv' hfresh'
          (List.nodup_cons.mp hnd).2
        simpa [List.append_assoc] using hrec

/-- C5.  For one round `i` of the driver, walking the emitted vertex's
(duplicate-free) adjacency list from any coherent state whose blocks all
carry stamps below `i` satisfies: every move leaves a pre-round block
(`src` below the round's fresh-identity watermark `st.nextId`) for a
block created this round (`tgt` at or above the watermark); all moves
out of the same source block land in the same target block; at most one
block is created per source block; and every non-creating move reuses a
block created earlier in the round for that very source.  Together:
within one outer round at most one new block is created per split block,
and every neighbour leaving a block `S` is appended to the single new
block created for `S` in that round. -/
theorem lexbfs_one_new_block_per_split (minus : Bool) (i : Nat) (st : St)
    (L : List (Option V)) (hi : 0 < i)
    (hcoh : Coherent st)
    (hstamps : ∀ b ∈ st.chain, b.stamp < i)
    (hnd : L.Nodup) :
    (∀ e ∈ (foldNeighbors minus i st L).log,
        e.src < st.nextId ∧ st.nextId ≤ e.tgt) ∧
    (∀ e ∈ (foldNeighbors minus i st L).log,
        ∀ e' ∈ (foldNeighbors minus i st L).log,
        e.src = e'.src → e.tgt = e'.tgt) ∧
    (∀ s : Nat, ((foldNeighbors minus i st L).log.filter
        fun e => e.created && e.src == s).length ≤ 1) ∧
    (∀ e ∈ (foldNeighbors minus i st L).log, e.created = false →
        ∃ e' ∈ (foldNeighbors minus i st L).log,
          e'.created = true ∧ e'.src = e.src) := by
  have inv0 : RoundInv minus i st.nextId st [] :=
    ⟨hcoh, le_refl _,
      fun b hb => Or.inl (hstamps b hb),
      by simp, by simp, by simp,
      fun b hb hn => absurd hn (by have := hcoh.idsLt b hb; omega),
      by simp, by simp⟩
  have hres := foldNeighbors_inv minus i st.nextId hi L st [] inv0 (by simp) hnd
  rw [List.nil_append] at hres
  exact ⟨fun e he => ⟨(hres.logRange e he).1, (hres.logRange e he).2.1⟩,
    hres.logFun, hres.logCreate, hres.nonCreate⟩

theorem lexbfs_split_link_spec_witness :
    splitLink false 1 [(⟨0, [1, 2], 0⟩ : Block), ⟨1, [3], 0⟩] 1 3 2 =
      [(⟨0, [1, 2], 0⟩ : Block), ⟨2, [3], 0⟩, ⟨1, [3], 1⟩] := by
  have h := (lexbfs_split_link_spec false 1
      (⟨[⟨0, [1, 2], 0⟩, ⟨1, [3], 0⟩],
        fun x => if x = 3 then some 1 else
          if x = 1 then some 0 else if x = 2 then some 0 else none,
        2, []⟩ : St) 3
      [⟨0, [1, 2], 0⟩] [] ⟨1, [3], 0⟩ rfl (by decide) (by decide)
      (by decide) (by decide) (by decide)).2.1
  simpa using h

theorem lexbfs_one_new_block_per_split_witness :
    (∀ e ∈ (foldNeighbors false 1
        (⟨[⟨0, [1, 2, 3], 0⟩],
          fun x => if x = 1 then some 0 else if x = 2 then some 0 else
            if x = 3 then some 0 else none, 1, []⟩ : St)
        [some 1, some 2]).log, e.src < 1 ∧ 1 ≤ e.tgt) ∧
    (∀ s : Nat, ((foldNeighbors false 1
        (⟨[⟨0, [1, 2, 3], 0⟩],
          fun x => if x = 1 then some 0 else if x = 2 then some 0 else
            if x = 3 then some 0 else none, 1, []⟩ : St)
        [some 1, some 2]).log.filter
        fun e => e.created && e.src == s).length ≤ 1) := by
  have hcoh : Coherent (⟨[⟨0, [1, 2, 3], 0⟩],
      fun x => if x = 1 then some 0 else if x = 2 then some 0 else
        if x = 3 then some 0 else none, 1, []⟩ : St) := by
    refine ⟨by decide, by decide, by decide, ?_, ?_, ?_⟩
    · intro b hb b' hb' x _ _
      have h1 : b = ⟨0, [1, 2, 3], 0⟩ := by simpa using hb
      have h2 : b' = ⟨0, [1, 2, 3], 0⟩ := by simpa using hb'
      rw [h1, h2]
    · intro x sid hx
      dsimp only at hx
      refine ⟨⟨0, [1, 2, 3], 0⟩, by simp, ?_, ?_⟩
      · by_cases h1 : x = 1
        · rw [if_pos h1] at hx; exact Option.some.inj hx
        · rw [if_neg h1] at hx
          by_cases h2 : x = 2
          · rw [if_pos h2] at hx; exact Option.some.inj hx
          · rw [if_neg h2] at hx
            by_cases h3 : x = 3
            · rw [if_pos h3] at hx; exact Option.some.inj hx
            · rw [if_neg h3] at hx; exact absurd hx (by simp)
      · by_cases h1 : x = 1
        · simp [h1]
        · rw [if_neg h1] at hx
          by_cases h2 : x = 2
          · simp [h2]
          · rw [if_neg h2] at hx
            by_cases h3 : x = 3
            · simp [h3]
            · rw [if_neg h3] at hx; exact absurd hx (by simp)
    · intro b hb x hx
      have h1 : b = ⟨0, [1, 2, 3], 0⟩ := by simpa using hb
      rw [h1] at hx ⊢
      have hx' : x = 1 ∨ x = 2 ∨ x = 3 := by simpa using hx
      rcases hx' with h | h | h <;> simp [h]
  have h := lexbfs_one_new_block_per_split false 1
      (⟨[⟨0, [1, 2, 3], 0⟩],
        fun x => if x = 1 then some 0 else if x = 2 then some 0 else
          if x = 3 then some 0 else none, 1, []⟩ : St)
      [some 1, some 2] (by decide) hcoh (by decide) (by decide)
  exact ⟨h.1, h.2.2.1⟩
